import Mathlib

/-!
The source annotation engine of annotr.

A shallow embedding of the comment insertion and comment stripping code of
`internal/fileops/writer.go`, `internal/llm/prompt.go`, `internal/cli/run.go`,
`internal/cli/clear.go` and `internal/parser/parser.go`.

Go strings and byte buffers are modelled as `List Char` (valid UTF-8 text read
as its sequence of code points); line numbers (`uint32` in the source) are
natural numbers below `2^32`. Language names, style names and file extensions,
which the source only compares against literals, are Lean strings.
-/

namespace Annotr

/-! ## The Go string library functions the source uses -/

/-- The text type: a Go string read as its sequence of code points. -/
abbrev Str := List Char

/-- Go `unicode.IsSpace`: the white-space code points `strings.TrimSpace` removes. -/
def isSpace (c : Char) : Bool :=
  let n := c.toNat
  (9 ≤ n && n ≤ 13) || n == 32 || n == 0x85 || n == 0xA0 || n == 0x1680 ||
  (0x2000 ≤ n && n ≤ 0x200A) || n == 0x2028 || n == 0x2029 || n == 0x202F ||
  n == 0x205F || n == 0x3000

/-- Go `strings.TrimSpace`: drop leading and trailing white space. -/
def trimSpace (s : Str) : Str :=
  (s.dropWhile isSpace).rdropWhile isSpace

/-- Go `strings.HasPrefix(s, p)`. -/
def hasPrefix (s p : Str) : Bool := p.isPrefixOf s

/-- Go `strings.HasSuffix(s, p)`. -/
def hasSuffix (s p : Str) : Bool := p.isSuffixOf s

/-- Go `strings.Split(s, "\n")`: the lines of `s`; always at least one line. -/
def splitLines : Str → List Str
  | [] => [[]]
  | c :: cs =>
    if c = '\n' then [] :: splitLines cs
    else (c :: (splitLines cs).headD []) :: (splitLines cs).tail

/-- Go `strings.Join(xs, "\n")`. -/
def joinLines : List Str → Str
  | [] => []
  | [x] => x
  | x :: y :: rest => x ++ '\n' :: joinLines (y :: rest)

/-! ## `internal/fileops/writer.go` -/

/-- The source's `getIndent`: the leading run of spaces and tabs of a line. -/
def getIndent : Str → Str
  | [] => []
  | ch :: rest => if ch = ' ' ∨ ch = '\t' then ch :: getIndent rest else []

/-- The source's `InsertComment`. `none` is the run-time failure of the index
expression `lines[lineNum]` when `lineNum` equals the line count; the
`language` argument is unused, as in the source. -/
def InsertComment (source : Str) (lineNum : Nat) (comment : Str) (language : String) :
    Option Str :=
  let _ := language
  let lines := splitLines source
  if lineNum > lines.length then some source
  else
    match lines.get? lineNum with
    | none => none
    | some target =>
      let indent := getIndent target
      let commentLines := (splitLines comment).map (fun cl => indent ++ cl)
      let formattedComment := joinLines commentLines
      let newLines := lines.take lineNum ++ [formattedComment] ++ lines.drop lineNum
      some (joinLines newLines)

/-- The lines `InsertComment` puts in (`commentLines` after its loop): the comment's
lines, each behind the indent of the target line. -/
def indentedLines (target comment : Str) : List Str :=
  (splitLines comment).map (fun cl => getIndent target ++ cl)

/-! ## `internal/llm/prompt.go` -/

/-- The source's `getLineCommentPrefix`. -/
def getLineCommentPrefix (language : String) : Str :=
  match language with
  | "python" | "ruby" | "shell" | "bash" | "yaml" => ['#']
  | _ => ['/', '/']

/-- The source's `getBlockCommentDelimiters`. -/
def getBlockCommentDelimiters (language : String) : Str × Str :=
  match language with
  | "python" => (['"', '"', '"'], ['"', '"', '"'])
  | "html" | "xml" => (['<', '!', '-', '-'], ['-', '-', '>'])
  | _ => (['/', '*'], ['*', '/'])

/-- The source's `formatLineComment`. -/
def formatLineComment (comment : Str) (language : String) : Str :=
  let pre := getLineCommentPrefix language
  joinLines ((splitLines comment).map (fun line => pre ++ ' ' :: trimSpace line))

/-- The source's `formatBlockComment`: `Sprintf("%s %s %s", start, comment, end)`. -/
def formatBlockComment (comment : Str) (language : String) : Str :=
  let d := getBlockCommentDelimiters language
  d.1 ++ ' ' :: (comment ++ ' ' :: d.2)

/-- The source's `formatDocstring`. -/
def formatDocstring (comment : Str) (language : String) : Str :=
  match language with
  | "python" => ['"', '"', '"'] ++ comment ++ ['"', '"', '"']
  | "go" =>
    joinLines ((splitLines comment).map (fun line => '/' :: '/' :: ' ' :: trimSpace line))
  | _ => formatBlockComment comment language

/-- The source's `FormatComment`. -/
def FormatComment (comment : Str) (language style : String) : Str :=
  let comment := trimSpace comment
  match style with
  | "line" => formatLineComment comment language
  | "block" => formatBlockComment comment language
  | "docstring" => formatDocstring comment language
  | _ => formatLineComment comment language

/-! ## `internal/parser/parser.go` -/

/-- A position of the syntax tree: zero-based row and column. -/
structure Point where
  Row : Nat
  Column : Nat
deriving DecidableEq

/-- A node of the concrete syntax tree, with the accessors the source reads:
`Type()`, `StartPoint()`, `EndPoint()`, `StartByte()`, `EndByte()` and the
children (`ChildCount()` / `Child(i)`). -/
inductive Node where
  | mk (type : String) (startPoint endPoint : Point) (startByte endByte : Nat)
      (children : List Node)

/-- Node accessor `Type()`. -/
def Node.type : Node → String
  | .mk t _ _ _ _ _ => t

/-- Node accessor `StartPoint()`. -/
def Node.startPoint : Node → Point
  | .mk _ p _ _ _ _ => p

/-- Node accessor `EndPoint()`. -/
def Node.endPoint : Node → Point
  | .mk _ _ p _ _ _ => p

/-- Node accessor `StartByte()`. -/
def Node.startByte : Node → Nat
  | .mk _ _ _ b _ _ => b

/-- Node accessor `EndByte()`. -/
def Node.endByte : Node → Nat
  | .mk _ _ _ _ b _ => b

/-- The children of a node, `Child(0)` to `Child(ChildCount()-1)`. -/
def Node.children : Node → List Node
  | .mk _ _ _ _ _ cs => cs

/-- The source's `CodeBlock` (its field `Type` is `BlockType` here, `Type` being
reserved). -/
structure CodeBlock where
  BlockType : String
  Name : Str
  StartLine : Nat
  EndLine : Nat
  StartByte : Nat
  EndByte : Nat
  Code : Str
deriving DecidableEq

/-- The slice expression `source[a:b]` (offsets read as positions of the text;
the parser hands out spans inside the buffer). The source slices the byte
buffer by byte offsets, so the two agree on ASCII text; after a character
outside ASCII the fields `Name` and `Code` cut here differ from the source's,
which of the nodes are units, their order and their lines do not. -/
def slice (source : Str) (a b : Nat) : Str := (source.drop a).take (b - a)

/-- The source's `isCommentableNode`: membership in the table `commentableTypes`. -/
def isCommentableNode (nodeType : String) : Bool :=
  ["function_declaration", "method_declaration", "function_definition",
   "method_definition", "class_definition", "class_declaration", "type_declaration",
   "interface_declaration", "struct_type", "function", "arrow_function",
   "function_expression", "lexical_declaration"].contains nodeType

mutual
/-- The source's `extractName`. -/
def extractName : Node → Str → Str
  | .mk _ _ _ _ _ cs, source => extractNameFrom cs source
/-- The loop of `extractName` over the children, from a given child on. -/
def extractNameFrom : List Node → Str → Str
  | [], _ => []
  | child :: rest, source =>
    if child.type = "identifier" ∨ child.type = "name" ∨ child.type = "type_identifier" then
      slice source child.startByte child.endByte
    else if child.type = "function_declarator" ∨ child.type = "declarator" then
      extractName child source
    else extractNameFrom rest source
end

/-- The block `extractBlocks` appends for a node that is commentable. -/
def blockOf (node : Node) (source : Str) : CodeBlock :=
  { BlockType := node.type
    Name := extractName node source
    StartLine := node.startPoint.Row
    EndLine := node.endPoint.Row
    StartByte := node.startByte
    EndByte := node.endByte
    Code := slice source node.startByte node.endByte }

mutual
/-- The source's `extractBlocks`, returning the blocks it appends. -/
def extractBlocks : Node → Str → List CodeBlock
  | .mk t sp ep sb eb cs, source =>
    (if isCommentableNode t then [blockOf (.mk t sp ep sb eb cs) source] else [])
      ++ extractBlocksFrom cs source
/-- The loop of `extractBlocks` over the children. -/
def extractBlocksFrom : List Node → Str → List CodeBlock
  | [], _ => []
  | child :: rest, source => extractBlocks child source ++ extractBlocksFrom rest source
end

/-! ## `internal/parser/context.go` -/

/-- Go `strings.Join(xs, sep)`. -/
def joinWith (sep : Str) : List Str → Str
  | [] => []
  | [x] => x
  | x :: y :: rest => x ++ sep ++ joinWith sep (y :: rest)

/-- The slice expression `l[a:b]` of a slice whose capacity is its length (as
`strings.Split` returns); `none` is the run-time failure on bounds out of range. -/
def goSlice {α : Type} (l : List α) (a b : Nat) : Option (List α) :=
  if a ≤ b ∧ b ≤ l.length then some ((l.take b).drop a) else none

/-- The source's `BuildContext`, for a window size `contextLines ≥ 0` (the caller
passes 5). Line numbers stay far below `2^32`, so `block.EndLine+1`, computed
on `uint32` in the source, does not wrap. `none` is a run-time failure of a
slice expression. -/
def BuildContext (source : Str) (block : CodeBlock) (contextLines : Nat) : Option Str :=
  let lines := splitLines source
  let startLine :=
    if block.StartLine > contextLines then block.StartLine - contextLines else 0
  let endLine :=
    if block.EndLine + contextLines ≥ lines.length then lines.length - 1
    else block.EndLine + contextLines
  let before : Option (List Str) :=
    if startLine < block.StartLine then
      (goSlice lines startLine block.StartLine).map
        (fun beforeLines => ["// Before:\n".toList ++ joinLines beforeLines])
    else some []
  let after : Option (List Str) :=
    if block.EndLine < endLine then
      (goSlice lines (block.EndLine + 1) (endLine + 1)).map
        (fun afterLines =>
          if afterLines.length > 0 then ["// After:\n".toList ++ joinLines afterLines] else [])
    else some []
  match before, after with
  | some b, some a => some (joinWith ['\n', '\n'] (b ++ a))
  | _, _ => none

/-! ## `internal/cli/run.go` -/

/-- The source's `hasExistingComment`. -/
def hasExistingComment (source : Str) (lineNum : Nat) : Bool :=
  let lines := splitLines source
  if lineNum = 0 then false
  else if lineNum - 1 ≥ lines.length then false
  else
    let prevLine := trimSpace (lines.getD (lineNum - 1) [])
    hasPrefix prevLine ['/', '/'] ||
    hasPrefix prevLine ['#'] ||
    hasPrefix prevLine ['/', '*'] ||
    hasPrefix prevLine ['*', '/'] ||
    hasPrefix prevLine ['*'] ||
    hasPrefix prevLine ['"', '"', '"'] ||
    hasPrefix prevLine ['\'', '\'', '\'']

/-- The variables the mutation loop of `processFile` updates. -/
structure LoopState where
  modifiedSource : Str
  commentCount : Nat
deriving DecidableEq

/-- One iteration of the mutation loop of `processFile` for the block of index
`i`. The completion provider is a parameter: `provider i block` is the content
of its response for that block, `none` when the call returns an error. The
result `none` is a run-time failure inside `InsertComment`. -/
def processBlock (provider : Nat → CodeBlock → Option Str) (language style : String)
    (st : LoopState) (i : Nat) (block : CodeBlock) : Option LoopState :=
  if hasExistingComment st.modifiedSource block.StartLine then some st
  else
    match provider i block with
    | none => some st
    | some content =>
      let comment := FormatComment content language style
      match InsertComment st.modifiedSource block.StartLine comment language with
      | none => none
      | some modified =>
        some { modifiedSource := modified, commentCount := st.commentCount + 1 }

/-- The mutation loop over the (index, block) pairs in the order given. -/
def runBlocks (provider : Nat → CodeBlock → Option Str) (language style : String) :
    List (Nat × CodeBlock) → LoopState → Option LoopState
  | [], st => some st
  | (i, block) :: rest, st =>
    match processBlock provider language style st i block with
    | none => none
    | some st' => runBlocks provider language style rest st'

/-- The mutation loop of `processFile`: `for i := len(blocks) - 1; i >= 0; i--`,
starting from the source that was read and a count of zero. -/
def mutationLoop (provider : Nat → CodeBlock → Option Str) (language style : String)
    (source : Str) (blocks : List CodeBlock) : Option LoopState :=
  runBlocks provider language style blocks.enum.reverse ⟨source, 0⟩

/-! ## `internal/cli/clear.go` -/

/-- The source's `getLineCommentPattern`. The regular expressions `^//` and `^#`
are kept as the literal they anchor at the start of the text; `none` is the
source's `nil`. -/
def getLineCommentPattern (ext : String) : Option Str :=
  match ext with
  | ".go" | ".js" | ".ts" | ".tsx" => some ['/', '/']
  | ".py" => some ['#']
  | _ => none

/-- Go `(*Regexp).MatchString` for a pattern `^lit`: the text starts with `lit`. -/
def matchString (lit : Str) (s : Str) : Bool := hasPrefix s lit

/-- The source's `getBlockCommentPatterns`. -/
def getBlockCommentPatterns (ext : String) : Str × Str :=
  match ext with
  | ".go" | ".js" | ".ts" | ".tsx" => (['/', '*'], ['*', '/'])
  | ".py" => (['"', '"', '"'], ['"', '"', '"'])
  | _ => ([], [])

/-- Replacement of every match of `\n{3,}` by two newlines, as a left-to-right
pass: `run` is the number of newlines of the current run already read; the
first two newlines of a run are emitted, the further ones are not. -/
def collapseNewlines : Nat → Str → Str
  | _, [] => []
  | run, c :: cs =>
    if c = '\n' then
      if run < 2 then '\n' :: collapseNewlines (run + 1) cs
      else collapseNewlines (run + 1) cs
    else c :: collapseNewlines 0 cs

/-- The source's `removeExcessiveBlankLines`:
`regexp.MustCompile("\n{3,}").ReplaceAllString(content, "\n\n")`. -/
def removeExcessiveBlankLines (content : Str) : Str := collapseNewlines 0 content

/-- The local variables of the loop of `removeComments`. -/
structure StripState where
  result : List Str
  count : Nat
  inBlockComment : Bool
deriving DecidableEq

/-- The check at the end of the loop body of `removeComments`: a line matching
the line-comment pattern is counted and dropped, any other line is kept. -/
def lineCommentStep (lineCommentPattern : Option Str) (st : StripState)
    (line trimmed : Str) : StripState :=
  match lineCommentPattern with
  | some pat =>
    if matchString pat trimmed then { st with count := st.count + 1 }
    else { st with result := st.result ++ [line] }
  | none => { st with result := st.result ++ [line] }

/-- One iteration of the loop of `removeComments`. -/
def stripLine (lineCommentPattern : Option Str) (blockStart blockEnd : Str)
    (st : StripState) (line : Str) : StripState :=
  let trimmed := trimSpace line
  if blockStart ≠ [] ∧ blockEnd ≠ [] then
    if hasPrefix trimmed blockStart && hasSuffix trimmed blockEnd then
      { st with count := st.count + 1 }
    else if hasPrefix trimmed blockStart then
      { st with inBlockComment := true, count := st.count + 1 }
    else if st.inBlockComment then
      if hasSuffix trimmed blockEnd || trimmed == blockEnd then
        { st with inBlockComment := false }
      else st
    else lineCommentStep lineCommentPattern st line trimmed
  else lineCommentStep lineCommentPattern st line trimmed

/-- The loop of `removeComments` over the lines, from a given state. -/
def stripLines (ext : String) (st : StripState) (lines : List Str) : StripState :=
  lines.foldl
    (stripLine (getLineCommentPattern ext) (getBlockCommentPatterns ext).1
      (getBlockCommentPatterns ext).2) st

/-- The source's `removeComments`: the cleaned text and the removed count. -/
def removeComments (source : Str) (ext : String) : Str × Nat :=
  let st := stripLines ext ⟨[], 0, false⟩ (splitLines source)
  (removeExcessiveBlankLines (joinLines st.result), st.count)

/-! ## Paths, extensions and the file system -/

/-- Go `strings.ToLower` on the ASCII letters. Go also lowers letters outside
ASCII; the only ones it maps to an ASCII letter are U+212A (to `k`) and U+0130
(to `i`), letters that occur in none of the extensions compared below. -/
def toLower (s : Str) : Str := s.map Char.toLower

/-- The loop of Go `filepath.Ext`, from the last character backwards: `acc` is the
part of the path already passed. -/
def extScan : Str → Str → Str
  | [], _ => []
  | c :: rest, acc =>
    if c = '/' then []
    else if c = '.' then '.' :: acc
    else extScan rest (c :: acc)

/-- Go `filepath.Ext`: the suffix of the last path element from its last dot on,
empty when that element holds no dot. -/
def filepathExt (path : Str) : Str := extScan path.reverse []

/-- The last element of a clean path (`filepath.Base`): what follows the last
separator. -/
def baseName (path : Str) : Str := (path.reverse.takeWhile (fun c => c != '/')).reverse

/-- The path up to and including its last separator; joined with a file name it
is `filepath.Join(filepath.Dir(path), name)` for the clean paths that
`filepath.Abs` returns. -/
def dirPart (path : Str) : Str := (path.reverse.dropWhile (fun c => c != '/')).reverse

/-- The source's `getLanguage`: the name of the grammar for an extension, `none`
for the source's `(nil, "")`. -/
def getLanguage (ext : String) : Option String :=
  match ext with
  | ".go" => some "go"
  | ".py" => some "python"
  | ".js" => some "javascript"
  | ".ts" => some "typescript"
  | ".tsx" => some "typescript"
  | _ => none

/-- The source's `GetSupportedExtensions`. -/
def GetSupportedExtensions : List String := [".go", ".py", ".js", ".ts", ".tsx"]

/-- The source's `IsSupportedFile`. -/
def IsSupportedFile (filename : Str) : Bool :=
  GetSupportedExtensions.contains (String.mk (toLower (filepathExt filename)))

/-- The source's `getLanguageFromExt` (`internal/fileops/scanner.go`). -/
def getLanguageFromExt (ext : Str) : String :=
  match String.mk (toLower ext) with
  | ".go" => "go"
  | ".py" => "python"
  | ".js" => "javascript"
  | ".ts" | ".tsx" => "typescript"
  | _ => ""

/-- The file system: the content of every path that holds a file. -/
abbrev FileSystem := Str → Option Str

/-- The file system with the entry of one path replaced. -/
def FileSystem.set (fs : FileSystem) (path : Str) (entry : Option Str) : FileSystem :=
  fun p => if p = path then entry else fs p

/-- What `os.WriteFile` does to the temporary file: it writes the content, or it
fails and leaves at that path no file or a file with some residue. -/
inductive WriteOutcome where
  | ok
  | failed (residue : Option Str)
deriving DecidableEq

/-- What `os.Rename` does: it moves the file, or it fails and moves nothing. -/
inductive RenameOutcome where
  | ok
  | failed
deriving DecidableEq

/-- The errors `WriteFile` and `clearFile` return. -/
inductive FileError where
  | unsupportedFileType
  | readFailed
  | tempWriteFailed
  | renameFailed
deriving DecidableEq

/-- The temporary path of `WriteFile`:
`filepath.Join(filepath.Dir(path), ".annotr-tmp-" + filepath.Base(path))`. -/
def tmpPathOf (path : Str) : Str :=
  dirPart path ++ ".annotr-tmp-".toList ++ baseName path

/-- The source's `WriteFile` (`internal/fileops/writer.go`) on a file system given
as a value; the outcomes of `os.WriteFile` and `os.Rename` are parameters, and
`os.Remove` of the temporary file succeeds. The result is the file system
afterwards and the error returned (`none` for `nil`). -/
def WriteFile (fs : FileSystem) (path content : Str) (w : WriteOutcome) (r : RenameOutcome) :
    FileSystem × Option FileError :=
  let tmpPath := tmpPathOf path
  match w with
  | .failed residue => (fs.set tmpPath residue, some .tempWriteFailed)
  | .ok =>
    let staged := fs.set tmpPath (some content)
    match r with
    | .failed => (staged.set tmpPath none, some .renameFailed)
    | .ok => ((staged.set tmpPath none).set path (staged tmpPath), none)

/-- The source's `clearFile` (`internal/cli/clear.go`) for a clean absolute path,
which `filepath.Abs` returns as it is; `fileops.ReadFile` fails when the path
holds no file. The messages it prints are left out. -/
def clearFile (fs : FileSystem) (absPath : Str) (w : WriteOutcome) (r : RenameOutcome) :
    FileSystem × Option FileError :=
  if !IsSupportedFile absPath then (fs, some .unsupportedFileType)
  else
    match fs absPath with
    | none => (fs, some .readFailed)
    | some source =>
      let res := removeComments source (String.mk (filepathExt absPath))
      if res.2 > 0 then WriteFile fs absPath res.1 w r
      else (fs, none)

/-! ## Vocabulary of the properties -/

/-- The comment tokens `hasExistingComment` recognises. -/
def commentTokens : List Str :=
  [['/', '/'], ['#'], ['/', '*'], ['*', '/'], ['*'], ['"', '"', '"'], ['\'', '\'', '\'']]

/-- The language / extension pairs of the supported files (`getLanguage`). -/
def matchingPairs : List (String × String) :=
  [("go", ".go"), ("python", ".py"), ("javascript", ".js"), ("typescript", ".ts"),
   ("typescript", ".tsx")]

/-- The flag `inBlockComment` of the stripper when its pass reaches line `k`. -/
def flagAtLine (ext : String) (source : Str) (k : Nat) : Bool :=
  (stripLines ext ⟨[], 0, false⟩ ((splitLines source).take k)).inBlockComment

/-- The cases in which `FormatComment` renders line comments: every style other
than `block` and `docstring`, and `docstring` for go. -/
def rendersLineComments (language style : String) : Bool :=
  style != "block" && (style != "docstring" || language == "go")

/-- A rendered comment which the block delimiters bracket once: no line after
the first starts, trimmed, with the block opening, and no line before the last
ends, trimmed, with the block close. -/
def delimitedOnce (blockStart blockEnd : Str) (lines : List Str) : Bool :=
  lines.tail.all (fun l => !hasPrefix (trimSpace l) blockStart) &&
  lines.dropLast.all (fun l => !hasSuffix (trimSpace l) blockEnd)

/-- The extensions for which the stripper has a line pattern and block
delimiters registered. -/
def registeredExts : List String := [".go", ".js", ".ts", ".tsx", ".py"]

/-- The number of newline characters at the start of a text. -/
def leadingNewlines : Str → Nat
  | [] => 0
  | c :: cs => if c = '\n' then leadingNewlines cs + 1 else 0

/-- The lines of the Before segment of a context window: `lines[max(0, S-N) : S]`. -/
def beforeWindow (lines : List Str) (startLine n : Nat) : List Str :=
  (lines.take startLine).drop (startLine - n)

/-- The lines of the After segment of a context window:
`lines[E+1 : min(len(lines), E+1+N)]`. -/
def afterWindow (lines : List Str) (endLine n : Nat) : List Str :=
  (lines.take (min lines.length (endLine + 1 + n))).drop (endLine + 1)

mutual
/-- The nodes of a tree in pre-order: a node before its descendants, siblings
from left to right; every node of the tree occurs once. -/
def preorder : Node → List Node
  | .mk t sp ep sb eb cs => .mk t sp ep sb eb cs :: preorderFrom cs
/-- The nodes of a list of trees in pre-order, tree after tree. -/
def preorderFrom : List Node → List Node
  | [] => []
  | c :: rest => preorder c ++ preorderFrom rest
end

/-- The tree of a python class holding two methods (Scenario E). -/
def classTree : Node :=
  .mk "module" ⟨0, 0⟩ ⟨4, 12⟩ 0 60
    [.mk "class_definition" ⟨0, 0⟩ ⟨4, 12⟩ 0 60
      [.mk "class" ⟨0, 0⟩ ⟨0, 5⟩ 0 5 [],
       .mk "identifier" ⟨0, 6⟩ ⟨0, 7⟩ 6 7 [],
       .mk ":" ⟨0, 7⟩ ⟨0, 8⟩ 7 8 [],
       .mk "block" ⟨1, 4⟩ ⟨4, 12⟩ 13 60
        [.mk "function_definition" ⟨1, 4⟩ ⟨2, 12⟩ 13 34
          [.mk "def" ⟨1, 4⟩ ⟨1, 7⟩ 13 16 [],
           .mk "identifier" ⟨1, 8⟩ ⟨1, 9⟩ 17 18 [],
           .mk "parameters" ⟨1, 9⟩ ⟨1, 11⟩ 18 20 [],
           .mk ":" ⟨1, 11⟩ ⟨1, 12⟩ 20 21 [],
           .mk "block" ⟨2, 8⟩ ⟨2, 12⟩ 30 34 []],
         .mk "function_definition" ⟨3, 4⟩ ⟨4, 12⟩ 39 60
          [.mk "def" ⟨3, 4⟩ ⟨3, 7⟩ 39 42 [],
           .mk "identifier" ⟨3, 8⟩ ⟨3, 9⟩ 43 44 [],
           .mk "parameters" ⟨3, 9⟩ ⟨3, 11⟩ 44 46 [],
           .mk ":" ⟨3, 11⟩ ⟨3, 12⟩ 46 47 [],
           .mk "block" ⟨4, 8⟩ ⟨4, 12⟩ 56 60 []]]]]

/-- The tree of the javascript function `function f() {`, `  const x = 1;`, `}`: a
lexical declaration nested in a function body and binding a number. -/
def nestedConstTree : Node :=
  .mk "program" ⟨0, 0⟩ ⟨2, 1⟩ 0 31
    [.mk "function_declaration" ⟨0, 0⟩ ⟨2, 1⟩ 0 31
      [.mk "function" ⟨0, 0⟩ ⟨0, 8⟩ 0 8 [],
       .mk "identifier" ⟨0, 9⟩ ⟨0, 10⟩ 9 10 [],
       .mk "formal_parameters" ⟨0, 10⟩ ⟨0, 12⟩ 10 12 [],
       .mk "statement_block" ⟨0, 13⟩ ⟨2, 1⟩ 13 31
        [.mk "\x7b" ⟨0, 13⟩ ⟨0, 14⟩ 13 14 [],
         .mk "lexical_declaration" ⟨1, 2⟩ ⟨1, 14⟩ 17 29
          [.mk "const" ⟨1, 2⟩ ⟨1, 7⟩ 17 22 [],
           .mk "variable_declarator" ⟨1, 8⟩ ⟨1, 13⟩ 23 28
            [.mk "identifier" ⟨1, 8⟩ ⟨1, 9⟩ 23 24 [],
             .mk "=" ⟨1, 10⟩ ⟨1, 11⟩ 25 26 [],
             .mk "number" ⟨1, 12⟩ ⟨1, 13⟩ 27 28 []],
           .mk ";" ⟨1, 13⟩ ⟨1, 14⟩ 28 29 []],
         .mk "\x7d" ⟨2, 0⟩ ⟨2, 1⟩ 30 31 []]]]

/-- The C-family extensions of the stripper. -/
def cFamilyExts : List String := [".go", ".js", ".ts", ".tsx"]

/-- A line that the loop of `removeComments` keeps when it meets it outside a block
comment: its trimmed form does not start with the block opening (when block
delimiters are registered) and does not match the line pattern (when there is
one). -/
def keptOutside (pat : Option Str) (bs be : Str) (line : Str) : Bool :=
  !(decide (bs ≠ [] ∧ be ≠ []) && hasPrefix (trimSpace line) bs) &&
  (match pat with
   | some lit => !matchString lit (trimSpace line)
   | none => true)

/-- Lexicographic order of positions. -/
def Point.le (p q : Point) : Bool :=
  p.Row < q.Row || (p.Row == q.Row && p.Column ≤ q.Column)

mutual
/-- A tree whose spans are laid out as in a source text: every span starts before
it ends, the children of a node lie inside its span, and they follow each other
in source order. -/
def spanOrdered : Node → Bool
  | .mk _ sp ep _ _ cs => Point.le sp ep && spanOrderedFrom sp ep cs
/-- The children `cs` lie between `lo` and `hi`, one after the other. -/
def spanOrderedFrom : Point → Point → List Node → Bool
  | _, _, [] => true
  | lo, hi, c :: rest =>
    Point.le lo c.startPoint && Point.le c.endPoint hi && spanOrdered c
      && spanOrderedFrom c.endPoint hi rest
end

/-- The start lines in the order the mutation loop meets them. -/
def processingOrder (blocks : List CodeBlock) : List Nat :=
  blocks.enum.reverse.map (fun p => p.2.StartLine)

/-- The tree of the JavaScript line `const f = () => {}`. -/
def arrowTree : Node :=
  .mk "program" ⟨0, 0⟩ ⟨0, 18⟩ 0 18
    [.mk "lexical_declaration" ⟨0, 0⟩ ⟨0, 18⟩ 0 18
      [.mk "const" ⟨0, 0⟩ ⟨0, 5⟩ 0 5 [],
       .mk "variable_declarator" ⟨0, 6⟩ ⟨0, 18⟩ 6 18
        [.mk "identifier" ⟨0, 6⟩ ⟨0, 7⟩ 6 7 [],
         .mk "=" ⟨0, 8⟩ ⟨0, 9⟩ 8 9 [],
         .mk "arrow_function" ⟨0, 10⟩ ⟨0, 18⟩ 10 18
          [.mk "formal_parameters" ⟨0, 10⟩ ⟨0, 12⟩ 10 12 [],
           .mk "=>" ⟨0, 13⟩ ⟨0, 15⟩ 13 15 [],
           .mk "statement_block" ⟨0, 16⟩ ⟨0, 18⟩ 16 18 []]]]]

/-- The tree of the two Go lines `package p` and `type T struct{}`. -/
def structTree : Node :=
  .mk "source_file" ⟨0, 0⟩ ⟨1, 15⟩ 0 25
    [.mk "package_clause" ⟨0, 0⟩ ⟨0, 9⟩ 0 9
      [.mk "package" ⟨0, 0⟩ ⟨0, 7⟩ 0 7 [],
       .mk "package_identifier" ⟨0, 8⟩ ⟨0, 9⟩ 8 9 []],
     .mk "type_declaration" ⟨1, 0⟩ ⟨1, 15⟩ 10 25
      [.mk "type" ⟨1, 0⟩ ⟨1, 4⟩ 10 14 [],
       .mk "type_spec" ⟨1, 5⟩ ⟨1, 15⟩ 15 25
        [.mk "type_identifier" ⟨1, 5⟩ ⟨1, 6⟩ 15 16 [],
         .mk "struct_type" ⟨1, 7⟩ ⟨1, 15⟩ 17 25
          [.mk "struct" ⟨1, 7⟩ ⟨1, 13⟩ 17 23 [],
           .mk "field_declaration_list" ⟨1, 13⟩ ⟨1, 15⟩ 23 25 []]]]]

/-! # Properties -/

/-! ## Lines of a text: `splitLines` and `joinLines` -/

theorem splitLines_ne_nil (s : Str) : splitLines s ≠ [] := by
  cases s with
  | nil => simp [splitLines]
  | cons c cs =>
    unfold splitLines
    split <;> simp

theorem splitLines_length_pos (s : Str) : 0 < (splitLines s).length :=
  List.length_pos.mpr (splitLines_ne_nil s)

theorem headD_cons_tail {α : Type} (l : List α) (d : α) (h : l ≠ []) :
    l.headD d :: l.tail = l := by
  cases l with
  | nil => exact absurd rfl h
  | cons a t => rfl

theorem splitLines_cons_nl (cs : Str) : splitLines ('\n' :: cs) = [] :: splitLines cs := by
  simp [splitLines]

theorem splitLines_cons_ne (c : Char) (cs : Str) (h : c ≠ '\n') :
    splitLines (c :: cs) = (c :: (splitLines cs).headD []) :: (splitLines cs).tail := by
  simp [splitLines, h]

/-- Splitting distributes over a newline between two texts. -/
theorem splitLines_append_nl (a b : Str) :
    splitLines (a ++ '\n' :: b) = splitLines a ++ splitLines b := by
  induction a with
  | nil => simp [splitLines]
  | cons c cs ih =>
    by_cases hc : c = '\n'
    · subst hc
      simp [splitLines_cons_nl, ih]
    · rw [List.cons_append, splitLines_cons_ne _ _ hc, splitLines_cons_ne _ _ hc, ih]
      obtain ⟨x, xs, hx⟩ := List.exists_cons_of_ne_nil (splitLines_ne_nil cs)
      simp [hx]

/-- A text without a newline is a single line. -/
theorem splitLines_of_no_nl (l : Str) (h : '\n' ∉ l) : splitLines l = [l] := by
  induction l with
  | nil => rfl
  | cons c cs ih =>
    have hc : c ≠ '\n' := fun e => h (by simp [e])
    have hcs : '\n' ∉ cs := fun e => h (List.mem_cons_of_mem _ e)
    rw [splitLines_cons_ne _ _ hc, ih hcs]
    rfl

/-- No line of a split text holds a newline. -/
theorem no_nl_of_mem_splitLines (s : Str) : ∀ l ∈ splitLines s, '\n' ∉ l := by
  induction s with
  | nil => simp [splitLines]
  | cons c cs ih =>
    by_cases hc : c = '\n'
    · subst hc
      intro l hl
      rw [splitLines_cons_nl] at hl
      rcases List.mem_cons.mp hl with h | h
      · simp [h]
      · exact ih l h
    · intro l hl
      rw [splitLines_cons_ne _ _ hc] at hl
      obtain ⟨x, xs, hx⟩ := List.exists_cons_of_ne_nil (splitLines_ne_nil cs)
      rw [hx] at hl ih
      rcases List.mem_cons.mp hl with h | h
      · subst h
        intro hm
        rcases List.mem_cons.mp hm with h1 | h1
        · exact hc h1.symm
        · exact ih x (List.mem_cons_self _ _) h1
      · exact ih l (List.mem_cons_of_mem _ h)

theorem joinLines_cons_cons (x y : Str) (rest : List Str) :
    joinLines (x :: y :: rest) = x ++ '\n' :: joinLines (y :: rest) := rfl

theorem joinLines_cons_of_ne_nil (x : Str) (xs : List Str) (h : xs ≠ []) :
    joinLines (x :: xs) = x ++ '\n' :: joinLines xs := by
  obtain ⟨y, ys, rfl⟩ := List.exists_cons_of_ne_nil h
  rfl

/-- Joining distributes over the concatenation of two non-empty line lists. -/
theorem joinLines_append (xs ys : List Str) (hx : xs ≠ []) (hy : ys ≠ []) :
    joinLines (xs ++ ys) = joinLines xs ++ '\n' :: joinLines ys := by
  induction xs with
  | nil => exact absurd rfl hx
  | cons x xs ih =>
    by_cases hxs : xs = []
    · subst hxs
      simpa [joinLines] using joinLines_cons_of_ne_nil x ys hy
    · rw [List.cons_append, joinLines_cons_of_ne_nil x (xs ++ ys) (by simp [hxs]),
        joinLines_cons_of_ne_nil x xs hxs, ih hxs]
      simp

/-- Splitting a joined list of texts splits each of them. -/
theorem splitLines_joinLines_flatMap (xs : List Str) (h : xs ≠ []) :
    splitLines (joinLines xs) = xs.flatMap splitLines := by
  induction xs with
  | nil => exact absurd rfl h
  | cons x xs ih =>
    by_cases hxs : xs = []
    · subst hxs
      simp [joinLines]
    · rw [joinLines_cons_of_ne_nil x xs hxs, splitLines_append_nl, ih hxs]
      simp

theorem flatMap_splitLines_of_no_nl (xs : List Str) (h : ∀ l ∈ xs, '\n' ∉ l) :
    xs.flatMap splitLines = xs := by
  induction xs with
  | nil => rfl
  | cons x xs ih =>
    rw [List.flatMap_cons, splitLines_of_no_nl x (h x (List.mem_cons_self _ _)),
      ih (fun l hl => h l (List.mem_cons_of_mem _ hl))]
    rfl

/-- Splitting undoes joining on newline-free lines. -/
theorem splitLines_joinLines (xs : List Str) (hne : xs ≠ []) (h : ∀ l ∈ xs, '\n' ∉ l) :
    splitLines (joinLines xs) = xs := by
  rw [splitLines_joinLines_flatMap xs hne, flatMap_splitLines_of_no_nl xs h]

/-- Joining undoes splitting. -/
theorem joinLines_splitLines (s : Str) : joinLines (splitLines s) = s := by
  induction s with
  | nil => rfl
  | cons c cs ih =>
    obtain ⟨x, xs, hx⟩ := List.exists_cons_of_ne_nil (splitLines_ne_nil cs)
    by_cases hc : c = '\n'
    · subst hc
      rw [splitLines_cons_nl, joinLines_cons_of_ne_nil _ _ (splitLines_ne_nil cs), ih]
      rfl
    · rw [splitLines_cons_ne _ _ hc, hx]
      rw [hx] at ih
      cases xs with
      | nil =>
        simp only [joinLines] at ih
        simp [joinLines, ih]
      | cons y ys =>
        rw [joinLines_cons_cons] at ih
        simp only [List.headD_cons, List.tail_cons, joinLines_cons_cons, List.cons_append, ih]

/-! ## `getIndent` and `InsertComment` -/

theorem no_nl_getIndent (l : Str) : '\n' ∉ getIndent l := by
  induction l with
  | nil => simp [getIndent]
  | cons c cs ih =>
    unfold getIndent
    split
    · rename_i h
      intro hm
      rcases List.mem_cons.mp hm with h1 | h1
      · rcases h with h | h <;> rw [h] at h1 <;> revert h1 <;> decide
      · exact ih h1
    · simp

theorem indentedLines_ne_nil (target comment : Str) : indentedLines target comment ≠ [] := by
  simp [indentedLines, splitLines_ne_nil]

theorem indentedLines_length (target comment : Str) :
    (indentedLines target comment).length = (splitLines comment).length := by
  simp [indentedLines]

theorem no_nl_indentedLines (target comment : Str) :
    ∀ l ∈ indentedLines target comment, '\n' ∉ l := by
  intro l hl
  simp only [indentedLines, List.mem_map] at hl
  obtain ⟨cl, hcl, rfl⟩ := hl
  intro hm
  rcases List.mem_append.mp hm with h | h
  · exact no_nl_getIndent target h
  · exact no_nl_of_mem_splitLines comment cl hcl h

/-- In range, `InsertComment` returns the joined splice. -/
theorem InsertComment_eq (source : Str) (lineNum : Nat) (comment : Str) (language : String)
    (h : lineNum < (splitLines source).length) :
    InsertComment source lineNum comment language = some (joinLines
      ((splitLines source).take lineNum
        ++ [joinLines (indentedLines ((splitLines source).getD lineNum []) comment)]
        ++ (splitLines source).drop lineNum)) := by
  have hget : (splitLines source).get? lineNum = some ((splitLines source).getD lineNum []) := by
    rw [List.getD_eq_getElem?_getD, List.get?_eq_getElem?, List.getElem?_eq_getElem h]
    rfl
  simp only [InsertComment]
  rw [if_neg (by omega), hget]
  rfl

/-- The lines of the joined splice are the spliced lines. -/
theorem splitLines_splice (source : Str) (lineNum : Nat) (target comment : Str) :
    splitLines (joinLines ((splitLines source).take lineNum
        ++ [joinLines (indentedLines target comment)] ++ (splitLines source).drop lineNum))
      = (splitLines source).take lineNum ++ indentedLines target comment
        ++ (splitLines source).drop lineNum := by
  rw [splitLines_joinLines_flatMap _ (by simp)]
  simp only [List.flatMap_append, List.flatMap_cons, List.flatMap_nil, List.append_nil]
  rw [flatMap_splitLines_of_no_nl _
      (fun l hl => no_nl_of_mem_splitLines source l (List.mem_of_mem_take hl)),
    flatMap_splitLines_of_no_nl _
      (fun l hl => no_nl_of_mem_splitLines source l (List.mem_of_mem_drop hl)),
    splitLines_joinLines _ (indentedLines_ne_nil target comment)
      (no_nl_indentedLines target comment)]

/-- In range, `InsertComment` returns a buffer whose lines are the splice. -/
theorem InsertComment_lines (source : Str) (lineNum : Nat) (comment : Str) (language : String)
    (h : lineNum < (splitLines source).length) :
    ∃ out, InsertComment source lineNum comment language = some out ∧
      splitLines out = (splitLines source).take lineNum
        ++ indentedLines ((splitLines source).getD lineNum []) comment
        ++ (splitLines source).drop lineNum :=
  ⟨_, InsertComment_eq source lineNum comment language h, splitLines_splice source lineNum _ comment⟩


/-- C5: for a line number below the line count, `InsertComment` returns a buffer
whose lines are the original lines before `lineNum`, then the lines of the
comment, each behind the indentation of the target line, then the original
lines from `lineNum` on; the line count grows by the number of comment lines. -/
theorem C5_insertComment_is_splice (source comment : Str) (lineNum : Nat) (language : String)
    (h : lineNum < (splitLines source).length) :
    ∃ out, InsertComment source lineNum comment language = some out ∧
      splitLines out = (splitLines source).take lineNum
        ++ (splitLines comment).map
            (fun cl => getIndent ((splitLines source).getD lineNum []) ++ cl)
        ++ (splitLines source).drop lineNum ∧
      (splitLines out).length = (splitLines source).length + (splitLines comment).length := by
  obtain ⟨out, hout, hlines⟩ := InsertComment_lines source lineNum comment language h
  refine ⟨out, hout, hlines, ?_⟩
  rw [hlines]
  simp only [List.length_append, List.length_take, List.length_drop, indentedLines_length]
  omega

/-- C5 at a two-line buffer and a two-line comment inserted above the indented line. -/
theorem C5_insertComment_is_splice_witness :
    1 < (splitLines "a\n\tb".toList).length ∧
    ∃ out, InsertComment "a\n\tb".toList 1 "// x\n// y".toList "go" = some out ∧
      splitLines out = (splitLines "a\n\tb".toList).take 1
        ++ (splitLines "// x\n// y".toList).map
            (fun cl => getIndent ((splitLines "a\n\tb".toList).getD 1 []) ++ cl)
        ++ (splitLines "a\n\tb".toList).drop 1 ∧
      (splitLines out).length
        = (splitLines "a\n\tb".toList).length + (splitLines "// x\n// y".toList).length :=
  ⟨by decide, C5_insertComment_is_splice "a\n\tb".toList "// x\n// y".toList 1 "go" (by decide)⟩

/-! ## `hasExistingComment` -/

theorem hasExistingComment_eq_any (source : Str) (n : Nat) (line : Str) (hn : 1 ≤ n)
    (hline : (splitLines source).get? (n - 1) = some line) :
    hasExistingComment source n = commentTokens.any (fun tok => hasPrefix (trimSpace line) tok) := by
  have hlt : n - 1 < (splitLines source).length := by
    rw [List.get?_eq_getElem?] at hline
    exact (List.getElem?_eq_some_iff.mp hline).1
  have hget : (splitLines source).getD (n - 1) [] = line := by
    rw [List.getD_eq_getElem?_getD, ← List.get?_eq_getElem?, hline]
    rfl
  simp only [hasExistingComment]
  rw [if_neg (by omega), if_neg (by omega), hget]
  simp [commentTokens, List.any, Bool.or_assoc]

theorem hasExistingComment_zero (source : Str) : hasExistingComment source 0 = false := by
  simp [hasExistingComment]

theorem hasExistingComment_past (source : Str) (n : Nat)
    (h : (splitLines source).length < n) : hasExistingComment source n = false := by
  simp only [hasExistingComment]
  split
  · rfl
  · rw [if_pos (by omega)]

/-- C7: `hasExistingComment(buffer, n)` is true exactly when `n ≥ 1`, line `n-1`
exists and its trimmed form starts with one of the recognised tokens; it is
false for `n = 0`, for every `n` beyond the line count (line `n-1` does not
exist), and when the preceding line is blank. -/
theorem C7_hasExistingComment_iff (source : Str) (n : Nat) :
    (hasExistingComment source n = true ↔
      1 ≤ n ∧ ∃ line, (splitLines source).get? (n - 1) = some line ∧
        ∃ tok ∈ commentTokens, tok <+: trimSpace line) ∧
    hasExistingComment source 0 = false ∧
    ((splitLines source).length < n → hasExistingComment source n = false) ∧
    (∀ line, (splitLines source).get? (n - 1) = some line → trimSpace line = [] →
      hasExistingComment source n = false) := by
  refine ⟨?_, hasExistingComment_zero source, hasExistingComment_past source n, ?_⟩
  · constructor
    · intro h
      have hn : 1 ≤ n := by
        rcases Nat.eq_zero_or_pos n with h0 | h0
        · rw [h0, hasExistingComment_zero] at h
          exact absurd h (by decide)
        · exact h0
      have hlt : n - 1 < (splitLines source).length := by
        by_contra hc
        rw [hasExistingComment_past source n (by omega)] at h
        exact absurd h (by decide)
      refine ⟨hn, (splitLines source)[n - 1], ?_, ?_⟩
      · rw [List.get?_eq_getElem?, List.getElem?_eq_getElem hlt]
      · rw [hasExistingComment_eq_any source n _ hn
          (by rw [List.get?_eq_getElem?, List.getElem?_eq_getElem hlt])] at h
        obtain ⟨tok, htok, hp⟩ := List.any_eq_true.mp h
        exact ⟨tok, htok, List.isPrefixOf_iff_prefix.mp hp⟩
    · rintro ⟨hn, line, hline, tok, htok, hp⟩
      rw [hasExistingComment_eq_any source n line hn hline]
      exact List.any_eq_true.mpr ⟨tok, htok, List.isPrefixOf_iff_prefix.mpr hp⟩
  · intro line hline hblank
    rcases Nat.eq_zero_or_pos n with h0 | h0
    · rw [h0]
      exact hasExistingComment_zero source
    · rw [hasExistingComment_eq_any source n line h0 hline, hblank]
      decide

/-! ## Order of the extracted units -/

theorem Point.row_le_of_le {p q : Point} (h : Point.le p q = true) : p.Row ≤ q.Row := by
  simp only [Point.le, Bool.or_eq_true, Bool.and_eq_true, decide_eq_true_eq, beq_iff_eq] at h
  omega

theorem blockOf_StartLine (node : Node) (source : Str) :
    (blockOf node source).StartLine = node.startPoint.Row := rfl

theorem spanOrdered_rows (n : Node) (h : spanOrdered n = true) :
    n.startPoint.Row ≤ n.endPoint.Row := by
  cases n with
  | mk t sp ep sb eb cs =>
    simp only [spanOrdered, Bool.and_eq_true] at h
    exact Point.row_le_of_le h.1

mutual
/-- In a span-ordered tree the units of a node start inside the node's rows and
are listed by non-decreasing start line. -/
theorem extractBlocks_bounds_sorted (source : Str) :
    ∀ (n : Node), spanOrdered n = true →
      (∀ b ∈ extractBlocks n source,
        n.startPoint.Row ≤ b.StartLine ∧ b.StartLine ≤ n.endPoint.Row) ∧
      ((extractBlocks n source).map (fun b => b.StartLine)).Pairwise (fun a b => a ≤ b)
  | .mk t sp ep sb eb cs, h => by
    simp only [spanOrdered, Bool.and_eq_true] at h
    obtain ⟨hle, hcs⟩ := h
    obtain ⟨hb, hs⟩ := extractBlocksFrom_bounds_sorted source sp ep cs hcs
    have hrow := Point.row_le_of_le hle
    constructor
    · intro b hbm
      simp only [extractBlocks, List.mem_append] at hbm
      rcases hbm with h1 | h1
      · split at h1
        · simp only [List.mem_singleton] at h1
          subst h1
          exact ⟨Nat.le_refl _, hrow⟩
        · simp at h1
      · exact hb b h1
    · simp only [extractBlocks, List.map_append]
      refine List.pairwise_append.mpr ⟨?_, hs, ?_⟩
      · split <;> simp
      · intro a ha b hbm
        obtain ⟨b', hb', rfl⟩ := List.mem_map.mp hbm
        split at ha
        · simp only [List.map_cons, List.map_nil, List.mem_singleton] at ha
          subst ha
          exact (hb b' hb').1
        · simp at ha
/-- The same for the children of a node lying between two positions. -/
theorem extractBlocksFrom_bounds_sorted (source : Str) :
    ∀ (lo hi : Point) (cs : List Node), spanOrderedFrom lo hi cs = true →
      (∀ b ∈ extractBlocksFrom cs source, lo.Row ≤ b.StartLine ∧ b.StartLine ≤ hi.Row) ∧
      ((extractBlocksFrom cs source).map (fun b => b.StartLine)).Pairwise (fun a b => a ≤ b)
  | _, _, [], _ => by simp [extractBlocksFrom]
  | lo, hi, c :: rest, h => by
    simp only [spanOrderedFrom, Bool.and_eq_true] at h
    obtain ⟨⟨⟨hlo, hhi⟩, hc⟩, hrest⟩ := h
    obtain ⟨hcb, hcsort⟩ := extractBlocks_bounds_sorted source c hc
    obtain ⟨hrb, hrsort⟩ := extractBlocksFrom_bounds_sorted source c.endPoint hi rest hrest
    have h1 := Point.row_le_of_le hlo
    have h2 := Point.row_le_of_le hhi
    have h3 := spanOrdered_rows c hc
    constructor
    · intro b hbm
      simp only [extractBlocksFrom, List.mem_append] at hbm
      rcases hbm with hm | hm
      · have := hcb b hm
        omega
      · have := hrb b hm
        omega
    · simp only [extractBlocksFrom, List.map_append]
      refine List.pairwise_append.mpr ⟨hcsort, hrsort, ?_⟩
      intro a ha b hbm
      obtain ⟨a', ha', rfl⟩ := List.mem_map.mp ha
      obtain ⟨b', hb', rfl⟩ := List.mem_map.mp hbm
      have := hcb a' ha'
      have := hrb b' hb'
      omega
end

theorem processingOrder_eq (blocks : List CodeBlock) :
    processingOrder blocks = (blocks.map (fun b => b.StartLine)).reverse := by
  simp only [processingOrder, List.map_reverse]
  congr 1
  have hf : (fun p : Nat × CodeBlock => p.2.StartLine) = (fun b => b.StartLine) ∘ Prod.snd := rfl
  rw [hf, ← List.map_map, List.enum_map_snd]

/-- C6: for a tree whose spans are laid out in source order (children inside the
span of their node, one after the other), the units `extractBlocks` returns
have non-decreasing `StartLine`, and the mutation loop, which walks the list
from last to first, meets non-increasing start lines. -/
theorem C6_units_sorted_by_startLine (root : Node) (source : Str)
    (h : spanOrdered root = true) :
    ((extractBlocks root source).map (fun b => b.StartLine)).Pairwise (fun a b => a ≤ b) ∧
    (processingOrder (extractBlocks root source)).Pairwise (fun a b => b ≤ a) := by
  have hs := (extractBlocks_bounds_sorted source root h).2
  refine ⟨hs, ?_⟩
  rw [processingOrder_eq, List.pairwise_reverse]
  exact hs

/-- C6 at the tree of a Go file with a type declaration holding a struct type. -/
theorem C6_units_sorted_by_startLine_witness :
    spanOrdered structTree = true ∧
    ((extractBlocks structTree "package p\ntype T struct{}".toList).map
      (fun b => b.StartLine)).Pairwise (fun a b => a ≤ b) ∧
    (processingOrder (extractBlocks structTree "package p\ntype T struct{}".toList)).Pairwise
      (fun a b => b ≤ a) :=
  ⟨by decide, C6_units_sorted_by_startLine structTree "package p\ntype T struct{}".toList
    (by decide)⟩

/-! ## Runs of the mutation loop and of the stripper on concrete files -/

/-- C1: a two-line text rendered in the block style for go is inserted above
line 0 as `/* a` and `b */`; the unit's first line moves to line 2, but
`hasExistingComment` of the new buffer at line 2 is false (line 1, `b */`,
starts with no recognised token), and a second run of the mutation loop on the
new buffer inserts the comment once more instead of inserting nothing. -/
theorem C1_block_comment_inserted_twice :
    FormatComment "a\nb".toList "go" "block" = "/* a\nb */".toList ∧
    mutationLoop (fun _ _ => some "a\nb".toList) "go" "block" "func f() {}".toList
        [⟨"function_declaration", "f".toList, 0, 0, 0, 11, "func f() {}".toList⟩]
      = some ⟨"/* a\nb */\nfunc f() {}".toList, 1⟩ ∧
    (splitLines "/* a\nb */\nfunc f() {}".toList).get? 2 = some "func f() {}".toList ∧
    hasExistingComment "/* a\nb */\nfunc f() {}".toList 2 = false ∧
    mutationLoop (fun _ _ => some "a\nb".toList) "go" "block" "/* a\nb */\nfunc f() {}".toList
        [⟨"function_declaration", "f".toList, 2, 2, 10, 21, "func f() {}".toList⟩]
      = some ⟨"/* a\nb */\n/* a\nb */\nfunc f() {}".toList, 1⟩ := by
  decide

/-- C2: in `const f = () => {}` the declaration and the arrow function both start
on line 0. The arrow function is processed first; when the declaration is
processed, line 0 of the buffer built so far is the comment just inserted and
not the original line 0, so the declaration's comment lands above the other
comment and not directly above the unit's first line. -/
theorem C2_same_line_units_shift :
    processingOrder (extractBlocks arrowTree "const f = () => {}".toList) = [0, 0] ∧
    runBlocks (fun i _ => some (if i = 0 then "outer".toList else "inner".toList))
        "javascript" "line"
        ((extractBlocks arrowTree "const f = () => {}".toList).enum.reverse.take 1)
        ⟨"const f = () => {}".toList, 0⟩
      = some ⟨"// inner\nconst f = () => {}".toList, 1⟩ ∧
    (splitLines "// inner\nconst f = () => {}".toList).get? 0
      ≠ (splitLines "const f = () => {}".toList).get? 0 ∧
    mutationLoop (fun i _ => some (if i = 0 then "outer".toList else "inner".toList))
        "javascript" "line" "const f = () => {}".toList
        (extractBlocks arrowTree "const f = () => {}".toList)
      = some ⟨"// outer\n// inner\nconst f = () => {}".toList, 2⟩ := by
  decide

/-- C4: stripping the four lines (blank, `// c`, blank, `x`) of a go file leaves a
text that begins with two newlines, that is with two blank lines in a row. -/
theorem C4_two_leading_blank_lines :
    removeComments "\n// c\n\nx".toList ".go" = ("\n\nx".toList, 1) ∧
    hasPrefix (removeComments "\n// c\n\nx".toList ".go").1 ['\n', '\n'] = true := by
  decide

/-- C8: in the go file `package p` / `type T struct{}` the type declaration and
the struct type it contains both start on line 1, neither is preceded by a
comment and the provider answers for both: the mutation loop inserts two
comments above line 1. -/
theorem C8_two_comments_on_one_line :
    (extractBlocks structTree "package p\ntype T struct{}".toList).map
        (fun b => (b.BlockType, b.StartLine))
      = [("type_declaration", 1), ("struct_type", 1)] ∧
    hasExistingComment "package p\ntype T struct{}".toList 1 = false ∧
    mutationLoop (fun _ _ => some "c".toList) "go" "line" "package p\ntype T struct{}".toList
        (extractBlocks structTree "package p\ntype T struct{}".toList)
      = some ⟨"package p\n// c\n// c\ntype T struct{}".toList, 2⟩ := by
  decide

/-- C9: in a python file whose docstring opens with text after the quotes and
closes with the quotes alone on their line, the closing line does not return
the stripper to the outside state: after the three docstring lines the flag is
still set, and the code line below is dropped. -/
theorem C9_python_close_keeps_block_state :
    (stripLines ".py" ⟨[], 0, false⟩
        (splitLines "\"\"\"Module doc.\nmore\n\"\"\"".toList)).inBlockComment = true ∧
    removeComments "\"\"\"Module doc.\nmore\n\"\"\"\nx = 1".toList ".py" = ([], 2) := by
  decide

/-- C10: a go block comment of three lines whose interior line starts with the
opening delimiter is counted twice: the interior line, dropped inside the block
comment, increases the removed count. -/
theorem C10_interior_line_counted :
    removeComments "/*\n/* x\n*/\ncode".toList ".go" = ("code".toList, 2) ∧
    (stripLines ".go" ⟨[], 0, false⟩ (splitLines "/*".toList)).inBlockComment = true ∧
    (stripLines ".go" ⟨[], 0, false⟩ (splitLines "/*".toList)).count = 1 ∧
    (stripLines ".go" ⟨[], 0, false⟩ (splitLines "/*\n/* x".toList)).count = 2 := by
  decide

/-! ## Trimming -/

theorem isSpace_of_mem_getIndent (l : Str) : ∀ c ∈ getIndent l, isSpace c = true := by
  induction l with
  | nil => simp [getIndent]
  | cons ch rest ih =>
    unfold getIndent
    split
    · rename_i h
      intro c hc
      rcases List.mem_cons.mp hc with h1 | h1
      · rcases h with h | h <;> rw [h1, h] <;> decide
      · exact ih c h1
    · simp

theorem trimSpace_append_of_spaces (ws x : Str) (h : ∀ c ∈ ws, isSpace c = true) :
    trimSpace (ws ++ x) = trimSpace x := by
  induction ws with
  | nil => rfl
  | cons w ws ih =>
    have hw : isSpace w = true := h w (List.mem_cons_self _ _)
    have := ih (fun c hc => h c (List.mem_cons_of_mem _ hc))
    simp only [trimSpace, List.cons_append, List.dropWhile_cons_of_pos hw] at this ⊢
    exact this

theorem dropWhile_concat_of_neg {α : Type} (p : α → Bool) (r : List α) (c : α)
    (h : p c = false) : (r ++ [c]).dropWhile p = r.dropWhile p ++ [c] := by
  induction r with
  | nil => simp [List.dropWhile, h]
  | cons a r ih =>
    by_cases ha : p a = true
    · simp [List.dropWhile, ha, ih]
    · simp [List.dropWhile, ha]

theorem rdropWhile_cons_of_neg {α : Type} (p : α → Bool) (c : α) (rest : List α)
    (h : p c = false) : (c :: rest).rdropWhile p = c :: rest.rdropWhile p := by
  simp [List.rdropWhile, dropWhile_concat_of_neg p _ c h]

theorem trimSpace_cons_of_neg (c : Char) (rest : Str) (h : isSpace c = false) :
    trimSpace (c :: rest) = c :: rest.rdropWhile isSpace := by
  simp only [trimSpace]
  rw [List.dropWhile_cons_of_neg (by simp [h]), rdropWhile_cons_of_neg _ _ _ h]

theorem mem_of_mem_trimSpace (l : Str) (c : Char) (h : c ∈ trimSpace l) : c ∈ l :=
  (List.dropWhile_suffix isSpace).mem ((List.rdropWhile_prefix isSpace _).mem h)

/-! ## The stripper's loop -/

theorem stripLines_append (ext : String) (st : StripState) (xs ys : List Str) :
    stripLines ext st (xs ++ ys) = stripLines ext (stripLines ext st xs) ys := by
  simp [stripLines, List.foldl_append]

theorem stripLines_cons (ext : String) (st : StripState) (x : Str) (xs : List Str) :
    stripLines ext st (x :: xs) = stripLines ext
      (stripLine (getLineCommentPattern ext) (getBlockCommentPatterns ext).1
        (getBlockCommentPatterns ext).2 st x) xs := rfl

/-- The kept lines and the flag after one line do not depend on the count. -/
theorem stripLine_view (pat : Option Str) (bs be : Str) (a b : StripState) (line : Str)
    (hr : a.result = b.result) (hb : a.inBlockComment = b.inBlockComment) :
    (stripLine pat bs be a line).result = (stripLine pat bs be b line).result ∧
    (stripLine pat bs be a line).inBlockComment
      = (stripLine pat bs be b line).inBlockComment := by
  obtain ⟨ra, ca, fa⟩ := a
  obtain ⟨rb, cb, fb⟩ := b
  simp only at hr hb
  subst hr hb
  cases pat with
  | none =>
    simp only [stripLine, lineCommentStep]
    split_ifs <;> simp
  | some lit =>
    simp only [stripLine, lineCommentStep]
    split_ifs <;> simp

/-- The kept lines and the flag after a run of lines do not depend on the count. -/
theorem stripLines_view (ext : String) (lines : List Str) :
    ∀ (a b : StripState), a.result = b.result → a.inBlockComment = b.inBlockComment →
      (stripLines ext a lines).result = (stripLines ext b lines).result ∧
      (stripLines ext a lines).inBlockComment = (stripLines ext b lines).inBlockComment := by
  induction lines with
  | nil => intro a b hr hb; exact ⟨hr, hb⟩
  | cons x xs ih =>
    intro a b hr hb
    rw [stripLines_cons, stripLines_cons]
    obtain ⟨h1, h2⟩ := stripLine_view (getLineCommentPattern ext) (getBlockCommentPatterns ext).1
      (getBlockCommentPatterns ext).2 a b x hr hb
    exact ih _ _ h1 h2

/-- Outside a block comment, a line whose trimmed form matches the line pattern
and does not start with the block opening is dropped and counted. -/
theorem stripLine_line_comment (lit bs be : Str) (st : StripState) (line : Str)
    (hst : st.inBlockComment = false) (hp : hasPrefix (trimSpace line) lit = true)
    (hnb : hasPrefix (trimSpace line) bs = false) :
    stripLine (some lit) bs be st line = { st with count := st.count + 1 } := by
  simp [stripLine, lineCommentStep, matchString, hp, hnb, hst]

/-- A line whose trimmed form starts with the block opening and ends with the
block close is dropped and counted, the flag staying as it is. -/
theorem stripLine_single_block (pat : Option Str) (bs be : Str) (st : StripState) (line : Str)
    (hbs : bs ≠ []) (hbe : be ≠ []) (hp : hasPrefix (trimSpace line) bs = true)
    (hs : hasSuffix (trimSpace line) be = true) :
    stripLine pat bs be st line = { st with count := st.count + 1 } := by
  simp [stripLine, hp, hs, hbs, hbe]

/-- A run of lines, each dropped and counted outside a block comment, leaves the
kept lines and the flag as they were. -/
theorem stripLines_all_dropped (ext : String) (C : List Str)
    (h : ∀ c ∈ C, ∀ s : StripState, s.inBlockComment = false →
      stripLine (getLineCommentPattern ext) (getBlockCommentPatterns ext).1
        (getBlockCommentPatterns ext).2 s c = { s with count := s.count + 1 }) :
    ∀ st : StripState, st.inBlockComment = false →
      stripLines ext st C = { st with count := st.count + C.length } := by
  induction C with
  | nil => intro st _; rfl
  | cons c cs ih =>
    intro st hst
    rw [stripLines_cons, h c (List.mem_cons_self _ _) st hst,
      ih (fun c' hc' => h c' (List.mem_cons_of_mem _ hc')) { st with count := st.count + 1 } hst]
    simp only [List.length_cons]
    congr 1
    omega

theorem stripLines_eq_foldl (ext : String) (st : StripState) (lines : List Str) :
    stripLines ext st lines = lines.foldl
      (stripLine (getLineCommentPattern ext) (getBlockCommentPatterns ext).1
        (getBlockCommentPatterns ext).2) st := rfl

/-- A line that starts with the block opening and does not end with the block
close is dropped and counted, and sets the flag. -/
theorem stripLine_block_open (pat : Option Str) (bs be : Str) (st : StripState) (line : Str)
    (hbs : bs ≠ []) (hbe : be ≠ []) (hp : hasPrefix (trimSpace line) bs = true)
    (hs : hasSuffix (trimSpace line) be = false) :
    stripLine pat bs be st line = { st with inBlockComment := true, count := st.count + 1 } := by
  simp [stripLine, hp, hs, hbs, hbe]

theorem ne_of_not_hasSuffix (t be : Str) (hs : hasSuffix t be = false) : (t == be) = false := by
  by_contra h
  have hEq : t = be := by simpa using h
  rw [hEq, hasSuffix] at hs
  have : be.isSuffixOf be = true := List.isSuffixOf_iff_suffix.mpr (List.suffix_refl be)
  rw [this] at hs
  exact absurd hs (by decide)

/-- Inside a block comment, a line that neither starts with the block opening
nor ends with the block close is dropped and leaves the state as it is. -/
theorem stripLine_in_block_keep (pat : Option Str) (bs be : Str) (st : StripState) (line : Str)
    (hbs : bs ≠ []) (hbe : be ≠ []) (hst : st.inBlockComment = true)
    (hp : hasPrefix (trimSpace line) bs = false) (hs : hasSuffix (trimSpace line) be = false) :
    stripLine pat bs be st line = st := by
  simp [stripLine, hp, hs, hbs, hbe, hst, ne_of_not_hasSuffix _ _ hs]

/-- Inside a block comment, a line that does not start with the block opening and
ends with the block close is dropped and clears the flag. -/
theorem stripLine_in_block_close (pat : Option Str) (bs be : Str) (st : StripState)
    (line : Str) (hbs : bs ≠ []) (hbe : be ≠ []) (hst : st.inBlockComment = true)
    (hp : hasPrefix (trimSpace line) bs = false) (hs : hasSuffix (trimSpace line) be = true) :
    stripLine pat bs be st line = { st with inBlockComment := false } := by
  simp [stripLine, hp, hs, hbs, hbe, hst]

/-- Inside a block comment, interior lines followed by a closing line are all
dropped without a count, and the flag is cleared. -/
theorem foldl_stripLine_in_block (pat : Option Str) (bs be : Str) (hbs : bs ≠ [])
    (hbe : be ≠ []) (last : Str)
    (hlp : hasPrefix (trimSpace last) bs = false) (hls : hasSuffix (trimSpace last) be = true)
    (mid : List Str)
    (hmid : ∀ l ∈ mid, hasPrefix (trimSpace l) bs = false ∧ hasSuffix (trimSpace l) be = false) :
    ∀ st : StripState, st.inBlockComment = true →
      (mid ++ [last]).foldl (stripLine pat bs be) st = { st with inBlockComment := false } := by
  induction mid with
  | nil =>
    intro st hst
    simp only [List.nil_append, List.foldl_cons, List.foldl_nil]
    exact stripLine_in_block_close pat bs be st last hbs hbe hst hlp hls
  | cons l ls ih =>
    intro st hst
    have hl := hmid l (List.mem_cons_self _ _)
    simp only [List.cons_append, List.foldl_cons]
    rw [stripLine_in_block_keep pat bs be st l hbs hbe hst hl.1 hl.2]
    exact ih (fun l' hl' => hmid l' (List.mem_cons_of_mem _ hl')) st hst

/-- Outside a block comment, an opening line, interior lines and a closing line
are all dropped and counted once; the kept lines and the flag stay. -/
theorem foldl_stripLine_block_comment (pat : Option Str) (bs be : Str) (hbs : bs ≠ [])
    (hbe : be ≠ []) (first last : Str) (mid : List Str)
    (hfp : hasPrefix (trimSpace first) bs = true) (hfs : hasSuffix (trimSpace first) be = false)
    (hmid : ∀ l ∈ mid, hasPrefix (trimSpace l) bs = false ∧ hasSuffix (trimSpace l) be = false)
    (hlp : hasPrefix (trimSpace last) bs = false) (hls : hasSuffix (trimSpace last) be = true)
    (st : StripState) (hst : st.inBlockComment = false) :
    (first :: (mid ++ [last])).foldl (stripLine pat bs be) st
      = { st with count := st.count + 1 } := by
  simp only [List.foldl_cons]
  rw [stripLine_block_open pat bs be st first hbs hbe hfp hfs,
    foldl_stripLine_in_block pat bs be hbs hbe last hlp hls mid hmid _ rfl]
  simp [hst]

/-- Inserting, at a line the stripper reaches outside a block comment, a comment
whose lines the stripper drops there, returning to the outside state, does not
change the cleaned text. -/
theorem removeComments_insert_dropped (source comment : Str) (k : Nat) (ext language : String)
    (hk : k < (splitLines source).length)
    (hout : (stripLines ext ⟨[], 0, false⟩ ((splitLines source).take k)).inBlockComment = false)
    (hC : ∀ s : StripState, s.inBlockComment = false →
      (stripLines ext s (indentedLines ((splitLines source).getD k []) comment)).result
        = s.result ∧
      (stripLines ext s (indentedLines ((splitLines source).getD k []) comment)).inBlockComment
        = false) :
    ∃ out, InsertComment source k comment language = some out ∧
      (removeComments out ext).1 = (removeComments source ext).1 := by
  obtain ⟨out, hins, hlines⟩ := InsertComment_lines source k comment language hk
  refine ⟨out, hins, ?_⟩
  simp only [removeComments]
  rw [hlines, stripLines_append, stripLines_append]
  obtain ⟨h1, h2⟩ := hC _ hout
  have hview := stripLines_view ext ((splitLines source).drop k) _
    (stripLines ext ⟨[], 0, false⟩ ((splitLines source).take k)) h1 (h2.trans hout.symm)
  rw [hview.1, ← stripLines_append, List.take_append_drop]

/-! ## Rendered comments under the stripper -/

theorem FormatComment_block (text : Str) (language : String) :
    FormatComment text language "block" = formatBlockComment (trimSpace text) language := rfl

theorem FormatComment_docstring (text : Str) (language : String) :
    FormatComment text language "docstring" = formatDocstring (trimSpace text) language := rfl

theorem FormatComment_line_like (text : Str) (language style : String)
    (hb : style ≠ "block") (hd : style ≠ "docstring") :
    FormatComment text language style = formatLineComment (trimSpace text) language := by
  unfold FormatComment
  split <;> first | rfl | contradiction

theorem formatDocstring_go (comment : Str) :
    formatDocstring comment "go" = formatLineComment comment "go" := rfl

/-- The lines of a line-style rendering: one per line of the text. -/
theorem splitLines_prefixed (pre T : Str) (hpre : '\n' ∉ pre) :
    splitLines (joinLines ((splitLines T).map (fun line => pre ++ ' ' :: trimSpace line)))
      = (splitLines T).map (fun line => pre ++ ' ' :: trimSpace line) := by
  apply splitLines_joinLines
  · simp [splitLines_ne_nil]
  · intro l hl
    obtain ⟨line, hline, rfl⟩ := List.mem_map.mp hl
    intro hm
    rcases List.mem_append.mp hm with h | h
    · exact hpre h
    · rcases List.mem_cons.mp h with h | h
      · exact absurd h (by decide)
      · exact no_nl_of_mem_splitLines T line hline (mem_of_mem_trimSpace _ _ h)

/-- An indented `// ...` line is dropped and counted by the C-family patterns. -/
theorem stripLine_slash_line (ws t : Str) (s : StripState)
    (hws : ∀ c ∈ ws, isSpace c = true) (hs : s.inBlockComment = false) :
    stripLine (some ['/', '/']) ['/', '*'] ['*', '/'] s (ws ++ ['/', '/'] ++ ' ' :: t)
      = { s with count := s.count + 1 } := by
  have htrim : trimSpace (ws ++ ['/', '/'] ++ ' ' :: t)
      = '/' :: '/' :: List.rdropWhile isSpace (' ' :: t) := by
    rw [List.append_assoc, trimSpace_append_of_spaces ws _ hws]
    simp only [List.cons_append, List.nil_append]
    rw [trimSpace_cons_of_neg _ _ (by decide), rdropWhile_cons_of_neg _ _ _ (by decide)]
  apply stripLine_line_comment _ _ _ _ _ hs
  · rw [htrim]; simp [hasPrefix, List.isPrefixOf]
  · rw [htrim]; simp [hasPrefix, List.isPrefixOf]

/-- An indented `# ...` line is dropped and counted by the python patterns. -/
theorem stripLine_hash_line (ws t : Str) (s : StripState)
    (hws : ∀ c ∈ ws, isSpace c = true) (hs : s.inBlockComment = false) :
    stripLine (some ['#']) ['"', '"', '"'] ['"', '"', '"'] s (ws ++ ['#'] ++ ' ' :: t)
      = { s with count := s.count + 1 } := by
  have htrim : trimSpace (ws ++ ['#'] ++ ' ' :: t)
      = '#' :: List.rdropWhile isSpace (' ' :: t) := by
    rw [List.append_assoc, trimSpace_append_of_spaces ws _ hws]
    simp only [List.cons_append, List.nil_append]
    rw [trimSpace_cons_of_neg _ _ (by decide)]
  apply stripLine_line_comment _ _ _ _ _ hs
  · rw [htrim]; simp [hasPrefix, List.isPrefixOf]
  · rw [htrim]; simp [hasPrefix, List.isPrefixOf]

theorem FormatComment_of_rendersLineComments (text : Str) (language style : String)
    (h : rendersLineComments language style = true) :
    FormatComment text language style = formatLineComment (trimSpace text) language := by
  simp only [rendersLineComments, Bool.and_eq_true, Bool.or_eq_true, bne_iff_ne, ne_eq,
    beq_iff_eq] at h
  obtain ⟨hb, hd⟩ := h
  by_cases hdoc : style = "docstring"
  · rcases hd with hd | hd
    · exact absurd hdoc hd
    · subst hdoc hd
      rfl
  · exact FormatComment_line_like text language style hb hdoc

/-- Every line of an indented `//` rendering is dropped and counted outside a
block comment by the C-family patterns. -/
theorem slash_lines_dropped (target T : Str) :
    ∀ c ∈ indentedLines target
        (joinLines ((splitLines T).map (fun line => ['/', '/'] ++ ' ' :: trimSpace line))),
      ∀ s : StripState, s.inBlockComment = false →
        stripLine (some ['/', '/']) ['/', '*'] ['*', '/'] s c
          = { s with count := s.count + 1 } := by
  intro c hc s hs
  rw [indentedLines, splitLines_prefixed _ _ (by decide)] at hc
  simp only [List.map_map, List.mem_map, Function.comp] at hc
  obtain ⟨line, _, rfl⟩ := hc
  have := stripLine_slash_line (getIndent target) (trimSpace line) s
    (isSpace_of_mem_getIndent target) hs
  simpa using this

/-- Every line of an indented `#` rendering is dropped and counted outside a block
comment by the python patterns. -/
theorem hash_lines_dropped (target T : Str) :
    ∀ c ∈ indentedLines target
        (joinLines ((splitLines T).map (fun line => ['#'] ++ ' ' :: trimSpace line))),
      ∀ s : StripState, s.inBlockComment = false →
        stripLine (some ['#']) ['"', '"', '"'] ['"', '"', '"'] s c
          = { s with count := s.count + 1 } := by
  intro c hc s hs
  rw [indentedLines, splitLines_prefixed _ _ (by decide)] at hc
  simp only [List.map_map, List.mem_map, Function.comp] at hc
  obtain ⟨line, _, rfl⟩ := hc
  have := stripLine_hash_line (getIndent target) (trimSpace line) s
    (isSpace_of_mem_getIndent target) hs
  simpa using this

/-- For a matching language / extension pair, the lines of a comment rendered as
line comments are all dropped and counted when the stripper meets them outside
a block comment. -/
theorem line_rendering_dropped (text target : Str) (language ext style : String)
    (hp : (language, ext) ∈ matchingPairs)
    (hline : rendersLineComments language style = true) :
    ∀ c ∈ indentedLines target (FormatComment text language style),
      ∀ s : StripState, s.inBlockComment = false →
        stripLine (getLineCommentPattern ext) (getBlockCommentPatterns ext).1
          (getBlockCommentPatterns ext).2 s c = { s with count := s.count + 1 } := by
  rw [FormatComment_of_rendersLineComments text language style hline]
  simp only [matchingPairs, List.mem_cons, Prod.mk.injEq, List.mem_singleton, List.mem_nil_iff,
    or_false] at hp
  rcases hp with ⟨rfl, rfl⟩ | ⟨rfl, rfl⟩ | ⟨rfl, rfl⟩ | ⟨rfl, rfl⟩ | ⟨rfl, rfl⟩
  · exact slash_lines_dropped target (trimSpace text)
  · exact hash_lines_dropped target (trimSpace text)
  · exact slash_lines_dropped target (trimSpace text)
  · exact slash_lines_dropped target (trimSpace text)
  · exact slash_lines_dropped target (trimSpace text)

/-! ## Rendered block comments under the stripper -/

theorem rdropWhile_solid_append {α : Type} (p : α → Bool) (d h : List α)
    (hd : ∀ c ∈ d, p c = false) : (d ++ h).rdropWhile p = d ++ h.rdropWhile p := by
  induction d with
  | nil => rfl
  | cons c d ih =>
    rw [List.cons_append, rdropWhile_cons_of_neg p c _ (hd c (List.mem_cons_self _ _)),
      ih (fun x hx => hd x (List.mem_cons_of_mem _ hx))]
    rfl

/-- Behind an indentation, a line that begins with a delimiter free of white space
still begins with it after trimming. -/
theorem hasPrefix_trimSpace_opening (ws d h : Str) (hws : ∀ c ∈ ws, isSpace c = true)
    (hd : ∀ c ∈ d, isSpace c = false) (hne : d ≠ []) :
    hasPrefix (trimSpace (ws ++ (d ++ h))) d = true := by
  obtain ⟨c, d', rfl⟩ := List.exists_cons_of_ne_nil hne
  rw [trimSpace_append_of_spaces ws _ hws, List.cons_append,
    trimSpace_cons_of_neg c _ (hd c (List.mem_cons_self _ _)),
    rdropWhile_solid_append _ d' h (fun x hx => hd x (List.mem_cons_of_mem _ hx)),
    hasPrefix, List.isPrefixOf_iff_prefix]
  exact ⟨h.rdropWhile isSpace, by simp⟩

theorem dropWhile_append_solid {α : Type} (p : α → Bool) (y : List α) (c : α) (e : List α)
    (hc : p c = false) : (y ++ c :: e).dropWhile p = y.dropWhile p ++ c :: e := by
  induction y with
  | nil => simp [List.dropWhile, hc]
  | cons a y ih =>
    by_cases ha : p a = true
    · simp [List.dropWhile, ha, ih]
    · simp [List.dropWhile, ha]

/-- A line that ends with a delimiter free of white space still ends with it after
trimming. -/
theorem hasSuffix_trimSpace_closing (y e : Str) (he : ∀ c ∈ e, isSpace c = false)
    (hne : e ≠ []) : hasSuffix (trimSpace (y ++ e)) e = true := by
  obtain ⟨c, e', hce⟩ := List.exists_cons_of_ne_nil hne
  have hc : isSpace c = false := he c (by rw [hce]; exact List.mem_cons_self _ _)
  have hlast : isSpace (e.getLast hne) = false := he _ (List.getLast_mem hne)
  have hdrop : (y ++ e).dropWhile isSpace = y.dropWhile isSpace ++ e := by
    rw [hce]
    exact dropWhile_append_solid isSpace y c e' hc
  have hkeep : (y.dropWhile isSpace ++ e).rdropWhile isSpace = y.dropWhile isSpace ++ e := by
    rw [← List.dropLast_append_getLast hne, ← List.append_assoc]
    exact List.rdropWhile_concat_neg _ _ _ (by simp [hlast])
  rw [trimSpace, hdrop, hkeep, hasSuffix, List.isSuffixOf_iff_suffix]
  exact List.suffix_append _ _

/-- The first line of a text that begins with a newline-free delimiter begins
with that delimiter. -/
theorem splitLines_opening (d X : Str) (hd : '\n' ∉ d) :
    ∃ h tl, splitLines (d ++ X) = (d ++ h) :: tl := by
  induction d with
  | nil =>
    obtain ⟨x, xs, hx⟩ := List.exists_cons_of_ne_nil (splitLines_ne_nil X)
    exact ⟨x, xs, by simpa using hx⟩
  | cons c d ih =>
    have hc : c ≠ '\n' := fun e => hd (by simp [e])
    obtain ⟨h, tl, hih⟩ := ih (fun e => hd (List.mem_cons_of_mem _ e))
    refine ⟨h, tl, ?_⟩
    rw [List.cons_append, splitLines_cons_ne _ _ hc, hih]
    rfl

/-- The last line of a text that ends with a newline-free delimiter ends with
that delimiter. -/
theorem splitLines_closing (X e : Str) (he : '\n' ∉ e) :
    ∃ pre m, splitLines (X ++ e) = pre ++ [m ++ e] := by
  induction X with
  | nil => exact ⟨[], [], by simpa using splitLines_of_no_nl e he⟩
  | cons c cs ih =>
    obtain ⟨pre, m, hih⟩ := ih
    by_cases hc : c = '\n'
    · subst hc
      exact ⟨[] :: pre, m, by rw [List.cons_append, splitLines_cons_nl, hih]; rfl⟩
    · rw [List.cons_append, splitLines_cons_ne _ _ hc, hih]
      cases pre with
      | nil => exact ⟨[], c :: m, by simp⟩
      | cons q qs => exact ⟨(c :: q) :: qs, m, by simp⟩

theorem no_nl_of_solid (d : Str) (hd : ∀ c ∈ d, isSpace c = false) : '\n' ∉ d := by
  intro h
  have := hd _ h
  revert this
  decide

/-- Outside a block comment, the lines of an indented rendering between the two
delimiters, bracketed once by them, are all dropped and counted once. -/
theorem block_rendering_dropped (pat : Option Str) (bs be M target : Str)
    (hbs : bs ≠ []) (hbe : be ≠ [])
    (sbs : ∀ c ∈ bs, isSpace c = false) (sbe : ∀ c ∈ be, isSpace c = false)
    (hdel : delimitedOnce bs be (splitLines (bs ++ (M ++ be))) = true)
    (s : StripState) (hs : s.inBlockComment = false) :
    (indentedLines target (bs ++ (M ++ be))).foldl (stripLine pat bs be) s
      = { s with count := s.count + 1 } := by
  have hws := isSpace_of_mem_getIndent target
  obtain ⟨h, tl, h1⟩ := splitLines_opening bs (M ++ be) (no_nl_of_solid bs sbs)
  obtain ⟨pre, m, h2⟩ := splitLines_closing (bs ++ M) be (no_nl_of_solid be sbe)
  rw [List.append_assoc] at h2
  simp only [delimitedOnce, Bool.and_eq_true, List.all_eq_true, Bool.not_eq_true'] at hdel
  obtain ⟨htail, hinit⟩ := hdel
  have hopen : ∀ x, hasPrefix (trimSpace (getIndent target ++ (bs ++ x))) bs = true :=
    fun x => hasPrefix_trimSpace_opening _ bs x hws sbs hbs
  have hclose : hasSuffix (trimSpace (getIndent target ++ (m ++ be))) be = true := by
    rw [← List.append_assoc]
    exact hasSuffix_trimSpace_closing _ be sbe hbe
  cases pre with
  | nil =>
    have hm : m ++ be = bs ++ h := by
      have := h2.symm.trans h1
      simp only [List.nil_append, List.cons.injEq] at this
      exact this.1
    rw [indentedLines, h2]
    simp only [List.nil_append, List.map_cons, List.map_nil, List.foldl_cons, List.foldl_nil]
    apply stripLine_single_block pat bs be s _ hbs hbe
    · rw [hm]; exact hopen h
    · exact hclose
  | cons q qs =>
    have hq : q = bs ++ h := by
      have := h2.symm.trans h1
      simp only [List.cons_append, List.cons.injEq] at this
      exact this.1
    rw [h2] at htail hinit
    simp only [List.cons_append, List.tail_cons] at htail
    have hinit' : ∀ l ∈ q :: qs, hasSuffix (trimSpace l) be = false := by
      intro l hl
      apply hinit
      have : (q :: qs ++ [m ++ be]).dropLast = q :: qs := List.dropLast_concat
      rw [this]
      exact hl
    rw [indentedLines, h2]
    simp only [List.cons_append, List.map_cons, List.map_append, List.map_nil]
    apply foldl_stripLine_block_comment pat bs be hbs hbe _ _ _ _ _ _ _ _ s hs
    · rw [hq]; exact hopen h
    · rw [trimSpace_append_of_spaces _ _ hws]
      exact hinit' q (List.mem_cons_self _ _)
    · intro l hl
      obtain ⟨l', hl', rfl⟩ := List.mem_map.mp hl
      rw [trimSpace_append_of_spaces _ _ hws]
      exact ⟨htail l' (List.mem_append_left _ hl'), hinit' l' (List.mem_cons_of_mem _ hl')⟩
    · rw [trimSpace_append_of_spaces _ _ hws]
      exact htail _ (List.mem_append_right _ (List.mem_singleton_self _))
    · exact hclose

/-- For a matching pair, a rendering that is not made of line comments is the
text between the block delimiters the stripper uses for the extension. -/
theorem block_rendering_shape (text : Str) (language ext style : String)
    (hp : (language, ext) ∈ matchingPairs)
    (hnl : rendersLineComments language style = false) :
    ∃ M, FormatComment text language style
      = (getBlockCommentPatterns ext).1 ++ (M ++ (getBlockCommentPatterns ext).2) := by
  have hstyle : style = "block" ∨ (style = "docstring" ∧ language ≠ "go") := by
    simp only [rendersLineComments, Bool.and_eq_false_iff, Bool.or_eq_false_iff, bne_eq_false_iff_eq,
      beq_eq_false_iff_ne, ne_eq] at hnl
    rcases hnl with h | h
    · exact Or.inl h
    · exact Or.inr h
  simp only [matchingPairs, List.mem_cons, Prod.mk.injEq, List.mem_singleton, List.mem_nil_iff,
    or_false] at hp
  rcases hstyle with rfl | ⟨rfl, hgo⟩
  · refine ⟨' ' :: (trimSpace text ++ [' ']), ?_⟩
    rw [FormatComment_block]
    rcases hp with ⟨rfl, rfl⟩ | ⟨rfl, rfl⟩ | ⟨rfl, rfl⟩ | ⟨rfl, rfl⟩ | ⟨rfl, rfl⟩ <;>
      simp [formatBlockComment, getBlockCommentDelimiters, getBlockCommentPatterns]
  · rw [FormatComment_docstring]
    rcases hp with ⟨rfl, rfl⟩ | ⟨rfl, rfl⟩ | ⟨rfl, rfl⟩ | ⟨rfl, rfl⟩ | ⟨rfl, rfl⟩
    · exact absurd rfl hgo
    · exact ⟨trimSpace text, by
        simp [formatDocstring, getBlockCommentPatterns]⟩
    · exact ⟨' ' :: (trimSpace text ++ [' ']), by
        simp [formatDocstring, formatBlockComment, getBlockCommentDelimiters,
          getBlockCommentPatterns]⟩
    · exact ⟨' ' :: (trimSpace text ++ [' ']), by
        simp [formatDocstring, formatBlockComment, getBlockCommentDelimiters,
          getBlockCommentPatterns]⟩
    · exact ⟨' ' :: (trimSpace text ++ [' ']), by
        simp [formatDocstring, formatBlockComment, getBlockCommentDelimiters,
          getBlockCommentPatterns]⟩

/-- The block delimiters of a supported extension are non-empty and free of white
space. -/
theorem patterns_solid (language ext : String) (hp : (language, ext) ∈ matchingPairs) :
    (getBlockCommentPatterns ext).1 ≠ [] ∧ (getBlockCommentPatterns ext).2 ≠ [] ∧
    (∀ c ∈ (getBlockCommentPatterns ext).1, isSpace c = false) ∧
    (∀ c ∈ (getBlockCommentPatterns ext).2, isSpace c = false) := by
  simp only [matchingPairs, List.mem_cons, Prod.mk.injEq, List.mem_singleton, List.mem_nil_iff,
    or_false] at hp
  rcases hp with ⟨rfl, rfl⟩ | ⟨rfl, rfl⟩ | ⟨rfl, rfl⟩ | ⟨rfl, rfl⟩ | ⟨rfl, rfl⟩ <;> decide

/-- A rendering from a text of a single line is bracketed once. -/
theorem delimitedOnce_of_one_line (text : Str) (language ext style : String)
    (hp : (language, ext) ∈ matchingPairs)
    (hnl : rendersLineComments language style = false) (h1 : '\n' ∉ trimSpace text) :
    delimitedOnce (getBlockCommentPatterns ext).1 (getBlockCommentPatterns ext).2
      (splitLines (FormatComment text language style)) = true := by
  have hone : '\n' ∉ FormatComment text language style := by
    have hstyle : style = "block" ∨ (style = "docstring" ∧ language ≠ "go") := by
      simp only [rendersLineComments, Bool.and_eq_false_iff, Bool.or_eq_false_iff,
        bne_eq_false_iff_eq, beq_eq_false_iff_ne, ne_eq] at hnl
      rcases hnl with h | h
      · exact Or.inl h
      · exact Or.inr h
    simp only [matchingPairs, List.mem_cons, Prod.mk.injEq, List.mem_singleton,
      List.mem_nil_iff, or_false] at hp
    rcases hstyle with rfl | ⟨rfl, hgo⟩
    · rw [FormatComment_block]
      rcases hp with ⟨rfl, rfl⟩ | ⟨rfl, rfl⟩ | ⟨rfl, rfl⟩ | ⟨rfl, rfl⟩ | ⟨rfl, rfl⟩ <;>
        simp [formatBlockComment, getBlockCommentDelimiters, h1]
    · rw [FormatComment_docstring]
      rcases hp with ⟨rfl, rfl⟩ | ⟨rfl, rfl⟩ | ⟨rfl, rfl⟩ | ⟨rfl, rfl⟩ | ⟨rfl, rfl⟩
      · exact absurd rfl hgo
      all_goals simp [formatDocstring, formatBlockComment, getBlockCommentDelimiters, h1]
  rw [splitLines_of_no_nl _ hone]
  rfl

/-- For a matching pair, the lines of a rendered comment, made of line comments
or bracketed once by the block delimiters, are all dropped when the stripper
meets them outside a block comment, and the stripper is outside again after
them. -/
theorem formatted_lines_dropped (text target : Str) (language ext style : String)
    (hp : (language, ext) ∈ matchingPairs)
    (hs : rendersLineComments language style = true ∨
      delimitedOnce (getBlockCommentPatterns ext).1 (getBlockCommentPatterns ext).2
        (splitLines (FormatComment text language style)) = true) :
    ∀ s : StripState, s.inBlockComment = false →
      (stripLines ext s (indentedLines target (FormatComment text language style))).result
        = s.result ∧
      (stripLines ext s (indentedLines target (FormatComment text language style))).inBlockComment
        = false := by
  intro s hst
  by_cases hline : rendersLineComments language style = true
  · rw [stripLines_all_dropped ext _ (line_rendering_dropped text target language ext style hp hline)
      s hst]
    exact ⟨rfl, hst⟩
  · have hnl : rendersLineComments language style = false := by simpa using hline
    have hdel := hs.resolve_left hline
    obtain ⟨M, hM⟩ := block_rendering_shape text language ext style hp hnl
    obtain ⟨hbs, hbe, sbs, sbe⟩ := patterns_solid language ext hp
    rw [hM] at hdel ⊢
    rw [stripLines_eq_foldl, block_rendering_dropped _ _ _ M target hbs hbe sbs sbe hdel s hst]
    exact ⟨rfl, hst⟩

/-- C3, the claim as stated, fails: the text `a */` / `b` rendered in the block
style for go and inserted above the only line `x` of a buffer leaves the line
`b */` behind when stripped, while stripping the buffer itself returns `x`. -/
theorem C3_inserted_line_survives :
    InsertComment "x".toList 0 (FormatComment "a */\nb".toList "go" "block") "go"
      = some "/* a */\nb */\nx".toList ∧
    (removeComments "/* a */\nb */\nx".toList ".go").1 = "b */\nx".toList ∧
    (removeComments "x".toList ".go").1 = "x".toList ∧
    (removeComments "/* a */\nb */\nx".toList ".go").1 ≠ (removeComments "x".toList ".go").1 := by
  decide

/-- C3, amended: for every buffer, every in-range line `k` that the stripper
reaches outside a block comment, every matching language / extension pair,
every style and every text whose rendered comment is made of line comments
(line style, docstring style for go) or is bracketed once by the block
delimiters (no line after its first starts, trimmed, with the opening and no
line before its last ends, trimmed, with the close; every one-line text is so):
`removeComments` of the buffer with the rendered comment inserted at `k` returns
the same cleaned text as `removeComments` of the buffer. -/
theorem C3_strip_after_insert (source text : Str) (k : Nat) (language ext style : String)
    (hk : k < (splitLines source).length)
    (hflag : flagAtLine ext source k = false)
    (hp : (language, ext) ∈ matchingPairs)
    (hs : rendersLineComments language style = true ∨
      delimitedOnce (getBlockCommentPatterns ext).1 (getBlockCommentPatterns ext).2
        (splitLines (FormatComment text language style)) = true) :
    ∃ out, InsertComment source k (FormatComment text language style) language = some out ∧
      (removeComments out ext).1 = (removeComments source ext).1 :=
  removeComments_insert_dropped source _ k ext language hk hflag
    (formatted_lines_dropped text _ language ext style hp hs)

/-- C3 amended, at a python file: a two-line text in the block style above the
indented line 2. -/
theorem C3_strip_after_insert_witness :
    2 < (splitLines "x = 1\ndef f():\n    pass".toList).length ∧
    flagAtLine ".py" "x = 1\ndef f():\n    pass".toList 2 = false ∧
    ("python", ".py") ∈ matchingPairs ∧
    (rendersLineComments "python" "block" = true ∨
      delimitedOnce (getBlockCommentPatterns ".py").1 (getBlockCommentPatterns ".py").2
        (splitLines (FormatComment " a\nb ".toList "python" "block")) = true) ∧
    ∃ out, InsertComment "x = 1\ndef f():\n    pass".toList 2
        (FormatComment " a\nb ".toList "python" "block") "python" = some out ∧
      (removeComments out ".py").1 = (removeComments "x = 1\ndef f():\n    pass".toList ".py").1 :=
  ⟨by decide, by decide, by decide, Or.inr (by decide),
    C3_strip_after_insert "x = 1\ndef f():\n    pass".toList " a\nb ".toList 2 "python" ".py"
      "block" (by decide) (by decide) (by decide) (Or.inr (by decide))⟩

/-! ## The mutation loop on strictly descending start lines -/

theorem take_of_take_eq {α : Type} (l l' : List α) (m n : Nat) (hmn : m ≤ n)
    (h : l.take n = l'.take n) : l.take m = l'.take m := by
  have h1 : (l.take n).take m = (l'.take n).take m := by rw [h]
  rwa [List.take_take, List.take_take, Nat.min_eq_left hmn] at h1

/-- One iteration on a buffer whose first `n` lines are the original ones, for a
unit that starts before line `n`: the iteration does not fail and leaves the
lines before the unit's start line as they are. -/
theorem processBlock_stable (provider : Nat → CodeBlock → Option Str) (language style : String)
    (orig : List Str) (st : LoopState) (i : Nat) (block : CodeBlock) (n : Nat)
    (hn : n ≤ orig.length) (hinv : (splitLines st.modifiedSource).take n = orig.take n)
    (hk : block.StartLine < n) :
    ∃ st', processBlock provider language style st i block = some st' ∧
      (splitLines st'.modifiedSource).take block.StartLine = orig.take block.StartLine := by
  have hkeep := take_of_take_eq _ _ block.StartLine n (Nat.le_of_lt hk) hinv
  have hlen : block.StartLine < (splitLines st.modifiedSource).length := by
    have h1 := congrArg List.length hinv
    simp only [List.length_take] at h1
    omega
  unfold processBlock
  split
  · exact ⟨st, rfl, hkeep⟩
  · cases hprov : provider i block with
    | none => exact ⟨st, rfl, hkeep⟩
    | some content =>
      obtain ⟨out, hout, hlines⟩ := InsertComment_lines st.modifiedSource block.StartLine
        (FormatComment content language style) language hlen
      refine ⟨⟨out, st.commentCount + 1⟩, by simp [hout], ?_⟩
      simp only [hlines, List.append_assoc]
      rw [List.take_append_of_le_length (by simp [List.length_take]; omega), List.take_take,
        Nat.min_self]
      exact hkeep

/-- The loop over units with strictly descending start lines, from a buffer whose
first `n` lines are the original ones and with all start lines below `n`, does
not fail and leaves every line before the smallest start line as it is. -/
theorem runBlocks_stable (provider : Nat → CodeBlock → Option Str) (language style : String)
    (orig : List Str) :
    ∀ (todo : List (Nat × CodeBlock)) (st : LoopState) (n : Nat), n ≤ orig.length →
      (splitLines st.modifiedSource).take n = orig.take n →
      (∀ p ∈ todo, p.2.StartLine < n) →
      (todo.map (fun p => p.2.StartLine)).Pairwise (fun x y => y < x) →
      ∃ st', runBlocks provider language style todo st = some st' ∧
        ∀ m, m ≤ n → (∀ p ∈ todo, m ≤ p.2.StartLine) →
          (splitLines st'.modifiedSource).take m = orig.take m := by
  intro todo
  induction todo with
  | nil =>
    intro st n _ hinv _ _
    exact ⟨st, rfl, fun m hm _ => take_of_take_eq _ _ m n hm hinv⟩
  | cons p rest ih =>
    obtain ⟨i, block⟩ := p
    intro st n hn hinv hlt hord
    simp only [List.map_cons, List.pairwise_cons] at hord
    have hk : block.StartLine < n := hlt (i, block) (List.mem_cons_self _ _)
    obtain ⟨st1, hst1, hinv1⟩ :=
      processBlock_stable provider language style orig st i block n hn hinv hk
    have hrest : ∀ q ∈ rest, q.2.StartLine < block.StartLine := fun q hq =>
      hord.1 q.2.StartLine (List.mem_map.mpr ⟨q, hq, rfl⟩)
    obtain ⟨st', hst', hfin⟩ := ih st1 block.StartLine (by omega) hinv1 hrest hord.2
    refine ⟨st', by simp [runBlocks, hst1, hst'], ?_⟩
    intro m _ hall
    exact hfin m (hall (i, block) (List.mem_cons_self _ _))
      (fun q hq => hall q (List.mem_cons_of_mem _ hq))

/-- Offset stability for strictly descending start lines: when the units are met
with strictly descending in-range start lines, the loop reaches every unit
without failure, and at that moment line `StartLine` of the buffer built so far
is the original buffer's line `StartLine`. -/
theorem offsets_stable_of_strictly_descending (provider : Nat → CodeBlock → Option Str)
    (language style : String) (source : Str) (done rest : List (Nat × CodeBlock))
    (i : Nat) (block : CodeBlock)
    (hord : ((done ++ (i, block) :: rest).map (fun p => p.2.StartLine)).Pairwise
      (fun x y => y < x))
    (hrange : ∀ p ∈ done ++ [(i, block)], p.2.StartLine < (splitLines source).length) :
    ∃ st, runBlocks provider language style done ⟨source, 0⟩ = some st ∧
      (splitLines st.modifiedSource).get? block.StartLine
        = (splitLines source).get? block.StartLine := by
  simp only [List.map_append, List.map_cons, List.pairwise_append, List.pairwise_cons] at hord
  obtain ⟨hdone, -, hcross⟩ := hord
  have hb : block.StartLine < (splitLines source).length :=
    hrange (i, block) (by simp)
  obtain ⟨st, hst, hfin⟩ := runBlocks_stable provider language style (splitLines source) done
    ⟨source, 0⟩ (splitLines source).length (Nat.le_refl _) rfl
    (fun p hp => hrange p (List.mem_append_left _ hp)) hdone
  refine ⟨st, hst, ?_⟩
  have htake := hfin (block.StartLine + 1) hb (fun p hp =>
    hcross p.2.StartLine (List.mem_map.mpr ⟨p, hp, rfl⟩) block.StartLine
      (List.mem_cons_self _ _))
  have h1 := congrArg (fun l => l.get? block.StartLine) htake
  simpa [List.get?_eq_getElem?, List.getElem?_take] using h1

/-! ## The idempotency check after a line-comment insertion -/

theorem getLineCommentPrefix_cases (language : String) :
    getLineCommentPrefix language = ['#'] ∨ getLineCommentPrefix language = ['/', '/'] := by
  unfold getLineCommentPrefix
  split <;> simp

/-- Every indented line of a line-comment rendering starts, trimmed, with a token
that `hasExistingComment` recognises. -/
theorem line_rendering_has_token (text target : Str) (language : String) :
    ∀ c ∈ indentedLines target (formatLineComment text language),
      commentTokens.any (fun tok => hasPrefix (trimSpace c) tok) = true := by
  intro c hc
  have hws := isSpace_of_mem_getIndent target
  rcases getLineCommentPrefix_cases language with hpre | hpre
  · simp only [formatLineComment, hpre] at hc
    rw [indentedLines, splitLines_prefixed _ _ (by decide)] at hc
    simp only [List.map_map, List.mem_map, Function.comp] at hc
    obtain ⟨line, _, rfl⟩ := hc
    have := hasPrefix_trimSpace_opening (getIndent target) ['#'] (' ' :: trimSpace line) hws
      (by decide) (by simp)
    simp only [List.cons_append, List.nil_append] at this
    simp [commentTokens, this]
  · simp only [formatLineComment, hpre] at hc
    rw [indentedLines, splitLines_prefixed _ _ (by decide)] at hc
    simp only [List.map_map, List.mem_map, Function.comp] at hc
    obtain ⟨line, _, rfl⟩ := hc
    have := hasPrefix_trimSpace_opening (getIndent target) ['/', '/'] (' ' :: trimSpace line) hws
      (by decide) (by simp)
    simp only [List.cons_append, List.nil_append] at this
    simp [commentTokens, this]

/-- Idempotency check after a line-comment insertion: when the comment is rendered
as line comments (any language), inserting it above an in-range line `k` moves
that line to `k + m`, `m` the number of lines of the rendered comment, and
`hasExistingComment` of the new buffer at `k + m` is true. -/
theorem line_rendering_detected (source text : Str) (k : Nat) (language style : String)
    (hk : k < (splitLines source).length)
    (hline : rendersLineComments language style = true) :
    ∃ out, InsertComment source k (FormatComment text language style) language = some out ∧
      (splitLines out).get? (k + (splitLines (FormatComment text language style)).length)
        = (splitLines source).get? k ∧
      hasExistingComment out (k + (splitLines (FormatComment text language style)).length)
        = true := by
  rw [FormatComment_of_rendersLineComments text language style hline]
  have hC := line_rendering_has_token (trimSpace text) ((splitLines source).getD k []) language
  generalize formatLineComment (trimSpace text) language = comment at hC ⊢
  obtain ⟨out, hout, hlines⟩ := InsertComment_lines source k comment language hk
  have hm := indentedLines_length ((splitLines source).getD k []) comment
  have hpos := splitLines_length_pos comment
  have htk : ((splitLines source).take k).length = k := by
    rw [List.length_take]; omega
  refine ⟨out, hout, ?_, ?_⟩
  · rw [hlines, List.get?_eq_getElem?, List.get?_eq_getElem?, List.append_assoc,
      List.getElem?_append_right (by omega), htk,
      List.getElem?_append_right (by omega), hm]
    simp
  · have hidx : (splitLines comment).length - 1
        < (indentedLines ((splitLines source).getD k []) comment).length := by omega
    have hlast : (splitLines out).get? (k + (splitLines comment).length - 1)
        = some ((indentedLines ((splitLines source).getD k []) comment).get
            ⟨(splitLines comment).length - 1, hidx⟩) := by
      rw [hlines, List.get?_eq_getElem?, List.append_assoc,
        List.getElem?_append_right (by omega), htk,
        List.getElem?_append_left (by omega)]
      rw [List.getElem?_eq_getElem (by omega)]
      simp only [List.get_eq_getElem, Option.some.injEq]
      congr 1
      omega
    rw [hasExistingComment_eq_any out _ _ (by omega) hlast]
    exact hC _ (List.get_mem _ _ _)

/-! ## `InsertComment` at and beyond the end of the buffer -/

/-- C15: for a line number that exceeds the buffer's line count, `InsertComment`
returns the buffer unchanged. -/
theorem C15_insertComment_noop_beyond (source comment : Str) (lineNum : Nat) (language : String)
    (h : (splitLines source).length < lineNum) :
    InsertComment source lineNum comment language = some source := by
  simp only [InsertComment]
  rw [if_pos h]

/-- C15 at a one-line buffer and line number 2. -/
theorem C15_insertComment_noop_beyond_witness :
    (splitLines "a".toList).length < 2 ∧
    InsertComment "a".toList 2 "// c".toList "go" = some "a".toList :=
  ⟨by decide, C15_insertComment_noop_beyond "a".toList "// c".toList 2 "go" (by decide)⟩

/-- C16: for the one-line buffer `a` and line number 1, equal to the line count,
the bound check `lineNum > len(lines)` lets execution continue and the lookup
`lines[1]` is outside the buffer: `InsertComment` fails and returns no buffer. -/
theorem C16_insertComment_fails_at_line_count :
    (splitLines "a".toList).length = 1 ∧
    ¬ (1 > (splitLines "a".toList).length) ∧
    (splitLines "a".toList).get? 1 = none ∧
    InsertComment "a".toList 1 "// c".toList "go" = none := by
  decide

/-! ## The renderings of `FormatComment` -/

theorem FormatComment_line (text : Str) (language : String) :
    FormatComment text language "line" = formatLineComment (trimSpace text) language := rfl

theorem getLineCommentPrefix_eq (language : String) :
    getLineCommentPrefix language
      = if language ∈ ["python", "ruby", "shell", "bash", "yaml"] then ['#'] else ['/', '/'] := by
  unfold getLineCommentPrefix
  split <;> simp_all

theorem no_nl_getLineCommentPrefix (language : String) :
    '\n' ∉ getLineCommentPrefix language := by
  rcases getLineCommentPrefix_cases language with h | h <;> rw [h] <;> decide

/-- C18: in the line style `FormatComment` returns as many lines as the trimmed
text has, and each is the language's line-comment token (`#` for python, ruby,
shell, bash and yaml, `//` for every other language), one space, and the
corresponding line of the trimmed text, itself trimmed; a blank line of the
text gives the token followed by the space. -/
theorem C18_line_style_lines (text : Str) (language : String) :
    splitLines (FormatComment text language "line")
      = (splitLines (trimSpace text)).map (fun line =>
          (if language ∈ ["python", "ruby", "shell", "bash", "yaml"] then ['#'] else ['/', '/'])
            ++ ' ' :: trimSpace line) ∧
    (splitLines (FormatComment text language "line")).length
      = (splitLines (trimSpace text)).length := by
  have h : splitLines (FormatComment text language "line")
      = (splitLines (trimSpace text)).map (fun line =>
          (if language ∈ ["python", "ruby", "shell", "bash", "yaml"] then ['#'] else ['/', '/'])
            ++ ' ' :: trimSpace line) := by
    rw [FormatComment_line, formatLineComment, ← getLineCommentPrefix_eq]
    exact splitLines_prefixed _ _ (no_nl_getLineCommentPrefix language)
  exact ⟨h, by rw [h, List.length_map]⟩

/-- C19, the claim as stated, fails: for ruby, whose line-comment token is `#`, the
block style wraps the text in `/*` and `*/`, not in triple quotes. -/
theorem C19_ruby_block_is_slash_star :
    getLineCommentPrefix "ruby" = ['#'] ∧
    FormatComment "x".toList "ruby" "block" = "/* x */".toList ∧
    FormatComment "x".toList "ruby" "block" ≠ "\"\"\" x \"\"\"".toList := by
  decide

/-- C19, amended: in the block style `FormatComment` returns one run: the open
delimiter, one space, the whole trimmed text with its inner newlines untouched,
one space, the close delimiter; the delimiters are triple quotes for python
only, `<!--` and `-->` for html and xml, and `/*` and `*/` for every other
language (ruby, shell, bash and yaml included). -/
theorem C19_block_style_run (text : Str) (language : String) :
    FormatComment text language "block"
      = (if language = "python" then ['"', '"', '"']
          else if language = "html" ∨ language = "xml" then ['<', '!', '-', '-']
          else ['/', '*'])
        ++ [' '] ++ trimSpace text ++ [' ']
        ++ (if language = "python" then ['"', '"', '"']
          else if language = "html" ∨ language = "xml" then ['-', '-', '>']
          else ['*', '/']) := by
  rw [FormatComment_block]
  simp only [formatBlockComment, getBlockCommentDelimiters]
  split <;> simp_all

/-- C20, the claim as stated, fails: for javascript the docstring style returns the
block rendering, not the line rendering. -/
theorem C20_javascript_docstring_is_block :
    FormatComment "x".toList "javascript" "docstring" = "/* x */".toList ∧
    FormatComment "x".toList "javascript" "line" = "// x".toList ∧
    FormatComment "x".toList "javascript" "docstring"
      ≠ FormatComment "x".toList "javascript" "line" := by
  decide

/-- C20, amended: in the docstring style, for every text, `FormatComment` returns
for go the same lines as the line style (each behind `// `), and for javascript
and typescript the same run as the block style (the text between `/*` and
`*/`). -/
theorem C20_docstring_style (text : Str) :
    FormatComment text "go" "docstring" = FormatComment text "go" "line" ∧
    FormatComment text "javascript" "docstring" = FormatComment text "javascript" "block" ∧
    FormatComment text "typescript" "docstring" = FormatComment text "typescript" "block" ∧
    FormatComment text "javascript" "block"
      = ['/', '*', ' '] ++ trimSpace text ++ [' ', '*', '/'] ∧
    FormatComment text "typescript" "block"
      = ['/', '*', ' '] ++ trimSpace text ++ [' ', '*', '/'] :=
  ⟨rfl, rfl, rfl, by simp [FormatComment_block, formatBlockComment, getBlockCommentDelimiters],
    by simp [FormatComment_block, formatBlockComment, getBlockCommentDelimiters]⟩

/-! ## Blank-line normalisation -/

theorem collapseNewlines_nil (n : Nat) : collapseNewlines n [] = [] := rfl

theorem collapseNewlines_cons_ne (n : Nat) (c : Char) (cs : Str) (h : c ≠ '\n') :
    collapseNewlines n (c :: cs) = c :: collapseNewlines 0 cs := by
  simp [collapseNewlines, h]

theorem collapseNewlines_nl_lt (n : Nat) (cs : Str) (h : n < 2) :
    collapseNewlines n ('\n' :: cs) = '\n' :: collapseNewlines (n + 1) cs := by
  simp [collapseNewlines, h]

theorem collapseNewlines_nl_ge (n : Nat) (cs : Str) (h : 2 ≤ n) :
    collapseNewlines n ('\n' :: cs) = collapseNewlines (n + 1) cs := by
  simp [collapseNewlines, Nat.not_lt.mpr h]

theorem leadingNewlines_of_triple_prefix (t : Str) (h : ['\n', '\n', '\n'] <+: t) :
    3 ≤ leadingNewlines t := by
  obtain ⟨r, rfl⟩ := h
  simp [leadingNewlines]

theorem triple_prefix_of_leadingNewlines (t : Str) (h : 3 ≤ leadingNewlines t) :
    ['\n', '\n', '\n'] <+: t := by
  match t, h with
  | a :: b :: c :: r, h =>
    by_cases ha : a = '\n'
    · by_cases hb : b = '\n'
      · by_cases hc : c = '\n'
        · subst ha hb hc
          exact ⟨r, rfl⟩
        · simp [leadingNewlines, ha, hb, hc] at h
      · simp [leadingNewlines, ha, hb] at h
    · simp [leadingNewlines, ha] at h
  | [a, b], h =>
    by_cases ha : a = '\n' <;> by_cases hb : b = '\n' <;> simp [leadingNewlines, ha, hb] at h
  | [a], h => by_cases ha : a = '\n' <;> simp [leadingNewlines, ha] at h
  | [], h => simp [leadingNewlines] at h

/-- A text holds three consecutive newlines from its first character on, or its
tail holds them. -/
theorem triple_infix_cons (c : Char) (y : Str) :
    ['\n', '\n', '\n'] <:+: c :: y ↔
      (c = '\n' ∧ 2 ≤ leadingNewlines y) ∨ ['\n', '\n', '\n'] <:+: y := by
  rw [List.infix_cons_iff]
  constructor
  · rintro (h | h)
    · left
      have h3 := leadingNewlines_of_triple_prefix _ h
      by_cases hc : c = '\n'
      · simp only [leadingNewlines, hc, if_true] at h3
        exact ⟨hc, by omega⟩
      · simp [leadingNewlines, hc] at h3
    · exact Or.inr h
  · rintro (⟨hc, h2⟩ | h)
    · left
      apply triple_prefix_of_leadingNewlines
      simp only [leadingNewlines, hc, if_true]
      omega
    · exact Or.inr h

/-- After `n` newlines already read, the pass emits at most `2 - n` further ones
at the start, and its output never holds three consecutive newlines. -/
theorem collapseNewlines_bound (t : Str) :
    ∀ n, leadingNewlines (collapseNewlines n t) + min n 2 ≤ 2 ∧
      ¬ ['\n', '\n', '\n'] <:+: collapseNewlines n t := by
  induction t with
  | nil =>
    intro n
    refine ⟨by simp [collapseNewlines, leadingNewlines], ?_⟩
    rw [collapseNewlines_nil]
    intro h
    have := List.IsInfix.length_le h
    simp at this
  | cons c cs ih =>
    intro n
    by_cases hc : c = '\n'
    · subst hc
      by_cases hn : n < 2
      · rw [collapseNewlines_nl_lt n cs hn]
        obtain ⟨h1, h2⟩ := ih (n + 1)
        refine ⟨?_, ?_⟩
        · simp only [leadingNewlines, if_true]
          omega
        · rw [triple_infix_cons]
          rintro (⟨-, h⟩ | h)
          · omega
          · exact h2 h
      · rw [collapseNewlines_nl_ge n cs (by omega)]
        obtain ⟨h1, h2⟩ := ih (n + 1)
        exact ⟨by omega, h2⟩
    · rw [collapseNewlines_cons_ne n c cs hc]
      obtain ⟨h1, h2⟩ := ih 0
      refine ⟨by simp [leadingNewlines, hc], ?_⟩
      rw [triple_infix_cons]
      rintro (⟨h, -⟩ | h)
      · exact hc h
      · exact h2 h

/-- A text without three consecutive newlines passes unchanged, also after up to
`2 - leadingNewlines` newlines already read. -/
theorem collapseNewlines_fixed (t : Str) :
    ∀ n, n + leadingNewlines t ≤ 2 → ¬ ['\n', '\n', '\n'] <:+: t →
      collapseNewlines n t = t := by
  induction t with
  | nil => intro n _ _; rfl
  | cons c cs ih =>
    intro n hn ht
    rw [triple_infix_cons] at ht
    by_cases hc : c = '\n'
    · subst hc
      simp only [leadingNewlines, if_true] at hn
      rw [collapseNewlines_nl_lt n cs (by omega), ih (n + 1) (by omega) (fun h => ht (Or.inr h))]
    · rw [collapseNewlines_cons_ne n c cs hc, ih 0 ?_ (fun h => ht (Or.inr h))]
      by_contra h
      exact ht (Or.inr (triple_prefix_of_leadingNewlines cs (by omega)).isInfix)

/-- The pass over a text that does not end with a newline, followed by more text:
the rest is read from a fresh run. -/
theorem collapseNewlines_append (a t : Str) (hne : a ≠ [])
    (hlast : a.getLast? ≠ some '\n') :
    ∀ n, collapseNewlines n (a ++ t) = collapseNewlines n a ++ collapseNewlines 0 t := by
  induction a with
  | nil => exact absurd rfl hne
  | cons c cs ih =>
    intro n
    by_cases hcs : cs = []
    · subst hcs
      have hc : c ≠ '\n' := by
        intro h
        apply hlast
        simp [h]
      simp [collapseNewlines, hc]
    · have hl : cs.getLast? ≠ some '\n' := by
        obtain ⟨x, xs, rfl⟩ := List.exists_cons_of_ne_nil hcs
        rwa [List.getLast?_cons_cons] at hlast
      by_cases hc : c = '\n'
      · subst hc
        by_cases hn : n < 2
        · rw [List.cons_append, collapseNewlines_nl_lt _ _ hn, collapseNewlines_nl_lt _ _ hn,
            ih hcs hl]
          rfl
        · rw [List.cons_append, collapseNewlines_nl_ge _ _ (by omega),
            collapseNewlines_nl_ge _ _ (by omega), ih hcs hl]
      · rw [List.cons_append, collapseNewlines_cons_ne _ _ _ hc,
          collapseNewlines_cons_ne _ _ _ hc, ih hcs hl]
        rfl

theorem collapseNewlines_of_head_ne (b : Str) (hb : b.head? ≠ some '\n') (n : Nat) :
    collapseNewlines n b = collapseNewlines 0 b := by
  cases b with
  | nil => rfl
  | cons c cs =>
    have hc : c ≠ '\n' := by
      intro h
      apply hb
      simp [h]
    rw [collapseNewlines_cons_ne _ _ _ hc, collapseNewlines_cons_ne _ _ _ hc]

/-- The pass over a run of `r` newlines that ends before `b`, after `n` newlines
already read: as many newlines are emitted as still fit below two. -/
theorem collapseNewlines_run (b : Str) (hb : b.head? ≠ some '\n') (r : Nat) :
    ∀ n, collapseNewlines n (List.replicate r '\n' ++ b)
      = List.replicate (min 2 (n + r) - min 2 n) '\n' ++ collapseNewlines 0 b := by
  induction r with
  | zero =>
    intro n
    simp only [List.replicate_zero, List.nil_append, Nat.add_zero, Nat.sub_self]
    exact collapseNewlines_of_head_ne b hb n
  | succ r ih =>
    intro n
    rw [List.replicate_succ, List.cons_append]
    by_cases hn : n < 2
    · rw [collapseNewlines_nl_lt _ _ hn, ih (n + 1)]
      have : min 2 (n + (r + 1)) - min 2 n = (min 2 (n + 1 + r) - min 2 (n + 1)) + 1 := by omega
      rw [this, List.replicate_succ]
      rfl
    · rw [collapseNewlines_nl_ge _ _ (by omega), ih (n + 1)]
      have h1 : min 2 (n + (r + 1)) - min 2 n = 0 := by omega
      have h2 : min 2 (n + 1 + r) - min 2 (n + 1) = 0 := by omega
      rw [h1, h2]

/-- The pass over a maximal run of `r` newlines between two texts. -/
theorem removeExcessiveBlankLines_run (a b : Str) (r : Nat)
    (ha : a.getLast? ≠ some '\n') (hb : b.head? ≠ some '\n') :
    removeExcessiveBlankLines (a ++ List.replicate r '\n' ++ b)
      = removeExcessiveBlankLines a ++ List.replicate (if 3 ≤ r then 2 else r) '\n'
        ++ removeExcessiveBlankLines b := by
  have hr : min 2 (0 + r) - min 2 0 = if 3 ≤ r then 2 else r := by
    split <;> omega
  simp only [removeExcessiveBlankLines]
  by_cases hne : a = []
  · subst hne
    rw [List.nil_append, collapseNewlines_run b hb r 0, hr]
    rfl
  · rw [List.append_assoc, collapseNewlines_append a _ hne ha 0, collapseNewlines_run b hb r 0, hr,
      List.append_assoc]

/-! ## The stripper on an extension without patterns -/

theorem patterns_of_not_registered (ext : String) (h : ext ∉ registeredExts) :
    getLineCommentPattern ext = none ∧ getBlockCommentPatterns ext = ([], []) := by
  simp only [registeredExts, List.mem_cons, List.mem_singleton, List.mem_nil_iff, or_false,
    not_or] at h
  obtain ⟨h1, h2, h3, h4, h5⟩ := h
  constructor
  · unfold getLineCommentPattern
    split <;> first | rfl | contradiction
  · unfold getBlockCommentPatterns
    split <;> first | rfl | contradiction

theorem foldl_stripLine_no_patterns (lines : List Str) :
    ∀ st : StripState, lines.foldl (stripLine none [] []) st
      = { st with result := st.result ++ lines } := by
  induction lines with
  | nil => intro st; simp
  | cons l ls ih =>
    intro st
    rw [List.foldl_cons, ih]
    simp [stripLine, lineCommentStep]

/-- Without registered patterns every line is kept and nothing is counted; the
blank-line normalisation is applied all the same. -/
theorem removeComments_not_registered (source : Str) (ext : String)
    (h : ext ∉ registeredExts) :
    removeComments source ext = (removeExcessiveBlankLines source, 0) := by
  obtain ⟨h1, h2⟩ := patterns_of_not_registered ext h
  simp only [removeComments, stripLines, h1, h2, foldl_stripLine_no_patterns, List.nil_append,
    joinLines_splitLines]

/-- C12, the claim as stated, fails: for the extension `.txt` the buffer `a`, two
blank lines, `b` comes back with one blank line only (count 0). -/
theorem C12_unregistered_ext_collapses_blank_lines :
    ".txt" ∉ registeredExts ∧
    removeComments "a\n\n\nb".toList ".txt" = ("a\n\nb".toList, 0) ∧
    (removeComments "a\n\n\nb".toList ".txt").1 ≠ "a\n\n\nb".toList := by
  decide

/-- C12, amended: for every extension without a registered line / block pattern
and every buffer, `removeComments` returns a count of 0 and the buffer with
its blank-line runs normalised (`removeExcessiveBlankLines` of the buffer); the
buffer comes back unchanged when it holds no three consecutive newlines. -/
theorem C12_unregistered_ext_passes_through (source : Str) (ext : String)
    (h : ext ∉ registeredExts) :
    removeComments source ext = (removeExcessiveBlankLines source, 0) ∧
    (¬ ['\n', '\n', '\n'] <:+: source → removeComments source ext = (source, 0)) := by
  refine ⟨removeComments_not_registered source ext h, fun ht => ?_⟩
  rw [removeComments_not_registered source ext h, removeExcessiveBlankLines,
    collapseNewlines_fixed source 0 ?_ ht]
  by_contra hc
  exact ht (triple_prefix_of_leadingNewlines source (by omega)).isInfix

/-- C12 amended, at the extension `.txt` and a buffer with a comment-like line. -/
theorem C12_unregistered_ext_passes_through_witness :
    ".txt" ∉ registeredExts ∧
    removeComments "// a\n\n\n\nb".toList ".txt"
      = (removeExcessiveBlankLines "// a\n\n\n\nb".toList, 0) ∧
    (¬ ['\n', '\n', '\n'] <:+: "// a\n\n\n\nb".toList →
      removeComments "// a\n\n\n\nb".toList ".txt" = ("// a\n\n\n\nb".toList, 0)) :=
  ⟨by decide, C12_unregistered_ext_passes_through "// a\n\n\n\nb".toList ".txt" (by decide)⟩

/-- C13: `removeExcessiveBlankLines` leaves a text without three consecutive
newlines as it is; around a maximal run of `r` newlines it works on the two
sides separately and turns the run into two newlines when `r ≥ 3` and keeps it
otherwise; its output never holds three consecutive newlines, and so neither
does the text `removeComments` returns. -/
theorem C13_blank_line_runs :
    (∀ t : Str, ¬ ['\n', '\n', '\n'] <:+: t → removeExcessiveBlankLines t = t) ∧
    (∀ (a b : Str) (r : Nat), a.getLast? ≠ some '\n' → b.head? ≠ some '\n' →
      removeExcessiveBlankLines (a ++ List.replicate r '\n' ++ b)
        = removeExcessiveBlankLines a ++ List.replicate (if 3 ≤ r then 2 else r) '\n'
          ++ removeExcessiveBlankLines b) ∧
    (∀ t : Str, ¬ ['\n', '\n', '\n'] <:+: removeExcessiveBlankLines t) ∧
    (∀ (source : Str) (ext : String),
      ¬ ['\n', '\n', '\n'] <:+: (removeComments source ext).1) := by
  refine ⟨fun t ht => ?_, removeExcessiveBlankLines_run,
    fun t => (collapseNewlines_bound t 0).2, fun source ext => ?_⟩
  · refine collapseNewlines_fixed t 0 ?_ ht
    by_contra hc
    exact ht (triple_prefix_of_leadingNewlines t (by omega)).isInfix
  · exact (collapseNewlines_bound _ 0).2

/-! ## The lines the stripper returns -/

theorem stripLine_result (pat : Option Str) (bs be : Str) (st : StripState) (line : Str) :
    (stripLine pat bs be st line).result = st.result ∨
    (stripLine pat bs be st line).result = st.result ++ [line] := by
  cases pat with
  | none =>
    simp only [stripLine, lineCommentStep]
    split_ifs <;> simp
  | some lit =>
    simp only [stripLine, lineCommentStep]
    split_ifs <;> simp

/-- The kept lines after a run of lines are the kept lines before it followed by
a subsequence of the run. -/
theorem foldl_stripLine_result (pat : Option Str) (bs be : Str) (lines : List Str) :
    ∀ st : StripState, ∃ kept, kept.Sublist lines ∧
      (lines.foldl (stripLine pat bs be) st).result = st.result ++ kept := by
  induction lines with
  | nil => intro st; exact ⟨[], List.Sublist.slnil, by simp⟩
  | cons l ls ih =>
    intro st
    obtain ⟨kept, hsub, hres⟩ := ih (stripLine pat bs be st l)
    rw [List.foldl_cons, hres]
    rcases stripLine_result pat bs be st l with h | h
    · exact ⟨kept, hsub.cons l, by rw [h]⟩
    · exact ⟨l :: kept, hsub.cons₂ l, by rw [h]; simp⟩

/-- The lines the loop of `removeComments` keeps are a subsequence of the lines
of the buffer. -/
theorem stripLines_result_sublist (source : Str) (ext : String) :
    (stripLines ext ⟨[], 0, false⟩ (splitLines source)).result.Sublist (splitLines source) := by
  obtain ⟨kept, hsub, hres⟩ := foldl_stripLine_result (getLineCommentPattern ext)
    (getBlockCommentPatterns ext).1 (getBlockCommentPatterns ext).2 (splitLines source)
    ⟨[], 0, false⟩
  rw [stripLines_eq_foldl, hres]
  simpa using hsub

/-- The lines of a normalised text are a subsequence of the lines of the text;
from a fresh or short run, or in front of a character other than a newline, the
first line is kept. -/
theorem splitLines_collapseNewlines (t : Str) :
    ∀ n, (splitLines (collapseNewlines n t)).Sublist (splitLines t) ∧
      (n < 2 ∨ t.head? ≠ some '\n' →
        (splitLines (collapseNewlines n t)).headD [] = (splitLines t).headD [] ∧
        (splitLines (collapseNewlines n t)).tail.Sublist (splitLines t).tail) := by
  induction t with
  | nil =>
    intro n
    exact ⟨List.Sublist.refl _, fun _ => ⟨rfl, List.Sublist.refl _⟩⟩
  | cons c cs ih =>
    intro n
    by_cases hc : c = '\n'
    · subst hc
      by_cases hn : n < 2
      · rw [collapseNewlines_nl_lt n cs hn, splitLines_cons_nl, splitLines_cons_nl]
        have h1 := (ih (n + 1)).1
        exact ⟨h1.cons₂ _, fun _ => ⟨rfl, h1⟩⟩
      · rw [collapseNewlines_nl_ge n cs (by omega), splitLines_cons_nl]
        refine ⟨(ih (n + 1)).1.cons _, fun h => ?_⟩
        rcases h with h | h
        · exact absurd h hn
        · exact absurd rfl h
    · rw [collapseNewlines_cons_ne n c cs hc, splitLines_cons_ne _ _ hc, splitLines_cons_ne _ _ hc]
      obtain ⟨h1, h2⟩ := (ih 0).2 (Or.inl (by decide))
      rw [h1]
      exact ⟨h2.cons₂ _, fun _ => ⟨rfl, h2⟩⟩

/-- C11: the text `removeComments` returns is the join of a subsequence of the
buffer's lines, in their order; every non-empty line of the returned text is a
line of the buffer, character for character; and unless the returned text is
empty, its lines are a subsequence of the buffer's lines. -/
theorem C11_output_lines_subsequence (source : Str) (ext : String) :
    (∃ kept : List Str, kept.Sublist (splitLines source) ∧
      (removeComments source ext).1 = joinLines kept) ∧
    (∀ l ∈ splitLines (removeComments source ext).1, l ≠ [] → l ∈ splitLines source) ∧
    ((removeComments source ext).1 ≠ [] →
      (splitLines (removeComments source ext).1).Sublist (splitLines source)) := by
  have hsub := stripLines_result_sublist source ext
  simp only [removeComments, removeExcessiveBlankLines]
  generalize (stripLines ext ⟨[], 0, false⟩ (splitLines source)).result = R at hsub
  by_cases hR : R = []
  · subst hR
    refine ⟨⟨[], List.nil_sublist _, rfl⟩, ?_, fun h => absurd rfl h⟩
    intro l hl hne
    simp only [joinLines, collapseNewlines_nil, splitLines, List.mem_singleton] at hl
    exact absurd hl hne
  · have hlines : splitLines (joinLines R) = R :=
      splitLines_joinLines R hR
        (fun l hl => no_nl_of_mem_splitLines source l (hsub.subset hl))
    have hout : (splitLines (collapseNewlines 0 (joinLines R))).Sublist (splitLines source) := by
      have := (splitLines_collapseNewlines (joinLines R) 0).1
      rw [hlines] at this
      exact this.trans hsub
    exact ⟨⟨_, hout, (joinLines_splitLines _).symm⟩, fun l hl _ => hout.subset hl,
      fun _ => hout⟩

/-! ## The indentation of the inserted lines -/

theorem getIndent_prefix_line (line : Str) : getIndent line <+: line := by
  induction line with
  | nil => exact List.prefix_refl _
  | cons ch rest ih =>
    unfold getIndent
    split
    · exact List.cons_prefix_cons.mpr ⟨rfl, ih⟩
    · exact List.nil_prefix

theorem mem_getIndent (line : Str) : ∀ c ∈ getIndent line, c = ' ' ∨ c = '\t' := by
  induction line with
  | nil => simp [getIndent]
  | cons ch rest ih =>
    unfold getIndent
    split
    · rename_i h
      intro c hc
      rcases List.mem_cons.mp hc with h1 | h1
      · rw [h1]; exact h
      · exact ih c h1
    · simp

/-- Every prefix of a line made only of spaces and tabs is a prefix of the indent. -/
theorem prefix_getIndent (line : Str) :
    ∀ p : Str, p <+: line → (∀ c ∈ p, c = ' ' ∨ c = '\t') → p <+: getIndent line := by
  induction line with
  | nil =>
    intro p hp _
    rw [List.prefix_nil] at hp
    subst hp
    exact List.nil_prefix
  | cons ch rest ih =>
    intro p hp hall
    cases p with
    | nil => exact List.nil_prefix
    | cons a q =>
      obtain ⟨ha, hq⟩ := List.cons_prefix_cons.mp hp
      subst ha
      have hch := hall a (List.mem_cons_self _ _)
      unfold getIndent
      rw [if_pos hch]
      exact List.cons_prefix_cons.mpr
        ⟨rfl, ih q hq (fun c hc => hall c (List.mem_cons_of_mem _ hc))⟩

/-- C14: `getIndent` returns the longest prefix of the target line made only of
spaces and tabs (a prefix of the line, made of spaces and tabs, and containing
every other such prefix), and each line that `InsertComment` inserts above an
in-range line is that prefix followed by the corresponding line of the
comment. -/
theorem C14_indent_of_inserted_lines (source comment : Str) (lineNum : Nat) (language : String)
    (h : lineNum < (splitLines source).length) :
    getIndent ((splitLines source).getD lineNum []) <+: (splitLines source).getD lineNum [] ∧
    (∀ c ∈ getIndent ((splitLines source).getD lineNum []), c = ' ' ∨ c = '\t') ∧
    (∀ p : Str, p <+: (splitLines source).getD lineNum [] → (∀ c ∈ p, c = ' ' ∨ c = '\t') →
      p <+: getIndent ((splitLines source).getD lineNum [])) ∧
    ∃ out, InsertComment source lineNum comment language = some out ∧
      ∀ (i : Nat) (cl : Str), (splitLines comment).get? i = some cl →
        (splitLines out).get? (lineNum + i)
          = some (getIndent ((splitLines source).getD lineNum []) ++ cl) := by
  refine ⟨getIndent_prefix_line _, mem_getIndent _, prefix_getIndent _, ?_⟩
  obtain ⟨out, hout, hlines⟩ := InsertComment_lines source lineNum comment language h
  refine ⟨out, hout, ?_⟩
  intro i cl hcl
  have hi : i < (splitLines comment).length := by
    rw [List.get?_eq_getElem?] at hcl
    exact (List.getElem?_eq_some_iff.mp hcl).1
  have htk : ((splitLines source).take lineNum).length = lineNum := by
    rw [List.length_take]; omega
  rw [List.get?_eq_getElem?] at hcl
  rw [hlines, List.get?_eq_getElem?, List.append_assoc,
    List.getElem?_append_right (by omega), htk,
    List.getElem?_append_left (by rw [indentedLines_length]; omega)]
  simp [indentedLines, hcl]

/-- C14 at a line behind a tab and two spaces, with a two-line comment. -/
theorem C14_indent_of_inserted_lines_witness :
    1 < (splitLines "a\n\t  b".toList).length ∧
    getIndent ((splitLines "a\n\t  b".toList).getD 1 []) = "\t  ".toList ∧
    ∃ out, InsertComment "a\n\t  b".toList 1 "// x\n// y".toList "go" = some out ∧
      ∀ (i : Nat) (cl : Str), (splitLines "// x\n// y".toList).get? i = some cl →
        (splitLines out).get? (1 + i)
          = some (getIndent ((splitLines "a\n\t  b".toList).getD 1 []) ++ cl) :=
  ⟨by decide, by decide,
    (C14_indent_of_inserted_lines "a\n\t  b".toList "// x\n// y".toList 1 "go"
      (by decide)).2.2.2⟩

/-! ## The context window -/

theorem goSlice_eq {α : Type} (l : List α) (a b : Nat) (hab : a ≤ b) (hb : b ≤ l.length) :
    goSlice l a b = some ((l.take b).drop a) := by
  simp [goSlice, hab, hb]

theorem beforeWindow_length (lines : List Str) (S n : Nat) (hS : S ≤ lines.length) :
    (beforeWindow lines S n).length = S - (S - n) := by
  simp only [beforeWindow, List.length_drop, List.length_take]
  omega

theorem afterWindow_length (lines : List Str) (E n : Nat) :
    (afterWindow lines E n).length = min lines.length (E + 1 + n) - (E + 1) := by
  simp only [afterWindow, List.length_drop, List.length_take]
  omega

/-- C17: for a unit with `StartLine ≤ EndLine < line count` and a window size
`N`, `BuildContext` returns the Before segment (`// Before:` and the lines
`lines[max(0, StartLine-N) : StartLine]`) when that range is not empty, the
After segment (`// After:` and the lines
`lines[EndLine+1 : min(lineCount, EndLine+1+N)]`) when that range is not empty,
the two separated by one blank line, and the empty text when both ranges are
empty; each range holds at most `N` lines and no line of the unit. -/
theorem C17_buildContext_window (source : Str) (block : CodeBlock) (N : Nat)
    (hse : block.StartLine ≤ block.EndLine)
    (hel : block.EndLine < (splitLines source).length) :
    BuildContext source block N = some
      (if beforeWindow (splitLines source) block.StartLine N = [] then
        (if afterWindow (splitLines source) block.EndLine N = [] then []
         else "// After:\n".toList ++ joinLines (afterWindow (splitLines source) block.EndLine N))
       else if afterWindow (splitLines source) block.EndLine N = [] then
        "// Before:\n".toList ++ joinLines (beforeWindow (splitLines source) block.StartLine N)
       else
        "// Before:\n".toList ++ joinLines (beforeWindow (splitLines source) block.StartLine N)
          ++ ['\n', '\n']
          ++ ("// After:\n".toList
            ++ joinLines (afterWindow (splitLines source) block.EndLine N))) ∧
    (beforeWindow (splitLines source) block.StartLine N).length ≤ N ∧
    (afterWindow (splitLines source) block.EndLine N).length ≤ N ∧
    beforeWindow (splitLines source) block.StartLine N
      = ((splitLines source).take block.StartLine).drop (block.StartLine - N) ∧
    afterWindow (splitLines source) block.EndLine N
      = ((splitLines source).take (min (splitLines source).length (block.EndLine + 1 + N))).drop
          (block.EndLine + 1) := by
  have hbl := beforeWindow_length (splitLines source) block.StartLine N (by omega)
  have hal := afterWindow_length (splitLines source) block.EndLine N
  refine ⟨?_, by omega, by omega, rfl, rfl⟩
  have hstart : (if block.StartLine > N then block.StartLine - N else 0) = block.StartLine - N := by
    split <;> omega
  have hend : (if block.EndLine + N ≥ (splitLines source).length
      then (splitLines source).length - 1 else block.EndLine + N) + 1
      = min (splitLines source).length (block.EndLine + 1 + N) := by
    split <;> omega
  have hdef : ((splitLines source).take
      (min (splitLines source).length (block.EndLine + 1 + N))).drop (block.EndLine + 1)
      = afterWindow (splitLines source) block.EndLine N := rfl
  simp only [BuildContext, hstart]
  by_cases hb : block.StartLine - N < block.StartLine
  · have hbne : beforeWindow (splitLines source) block.StartLine N ≠ [] := by
      intro h0
      rw [h0] at hbl
      simp at hbl
      omega
    rw [if_pos hb, goSlice_eq _ _ _ (by omega) (by omega), if_neg hbne]
    by_cases ha : block.EndLine < (if block.EndLine + N ≥ (splitLines source).length
        then (splitLines source).length - 1 else block.EndLine + N)
    · have hane : afterWindow (splitLines source) block.EndLine N ≠ [] := by
        intro h0
        rw [h0] at hal
        simp at hal
        omega
      have hpos : 0 < (afterWindow (splitLines source) block.EndLine N).length :=
        List.length_pos.mpr hane
      rw [if_pos ha, goSlice_eq _ _ _ (by omega) (by omega), hend, if_neg hane]
      simp only [Option.map_some']
      rw [hdef, if_pos hpos]
      simp [joinWith, beforeWindow]
    · have ha0 : afterWindow (splitLines source) block.EndLine N = [] := by
        apply List.eq_nil_of_length_eq_zero
        rw [hal]
        omega
      rw [if_neg ha, if_pos ha0]
      simp [joinWith, beforeWindow]
  · have hb0 : beforeWindow (splitLines source) block.StartLine N = [] := by
      apply List.eq_nil_of_length_eq_zero
      rw [hbl]
      omega
    rw [if_neg hb, if_pos hb0]
    by_cases ha : block.EndLine < (if block.EndLine + N ≥ (splitLines source).length
        then (splitLines source).length - 1 else block.EndLine + N)
    · have hane : afterWindow (splitLines source) block.EndLine N ≠ [] := by
        intro h0
        rw [h0] at hal
        simp at hal
        omega
      have hpos : 0 < (afterWindow (splitLines source) block.EndLine N).length :=
        List.length_pos.mpr hane
      rw [if_pos ha, goSlice_eq _ _ _ (by omega) (by omega), hend, if_neg hane]
      simp only [Option.map_some']
      rw [hdef, if_pos hpos]
      simp [joinWith]
    · have ha0 : afterWindow (splitLines source) block.EndLine N = [] := by
        apply List.eq_nil_of_length_eq_zero
        rw [hal]
        omega
      rw [if_neg ha, if_pos ha0]
      simp [joinWith]

/-- C17 at a five-line buffer, the unit on line 2 and a window of one line. -/
theorem C17_buildContext_window_witness :
    (2 : Nat) ≤ 2 ∧ 2 < (splitLines "a\nb\nc\nd\ne".toList).length ∧
    BuildContext "a\nb\nc\nd\ne".toList ⟨"function_declaration", [], 2, 2, 4, 5, ['c']⟩ 1
      = some "// Before:\nb\n\n// After:\nd".toList :=
  ⟨by decide, by decide,
    (C17_buildContext_window "a\nb\nc\nd\ne".toList
      ⟨"function_declaration", [], 2, 2, 4, 5, ['c']⟩ 1 (by decide) (by decide)).1.trans
      (by decide)⟩

/-! ## The units `extractBlocks` returns -/

mutual
/-- The units of a tree are the blocks of its commentable nodes, in pre-order. -/
theorem extractBlocks_eq_preorder (source : Str) :
    ∀ n : Node, extractBlocks n source
      = ((preorder n).filter (fun m => isCommentableNode m.type)).map
          (fun m => blockOf m source)
  | .mk t sp ep sb eb cs => by
    rw [extractBlocks, preorder, List.filter_cons, extractBlocksFrom_eq_preorder source cs]
    simp only [Node.type]
    split <;> simp
/-- The same for the children of a node. -/
theorem extractBlocksFrom_eq_preorder (source : Str) :
    ∀ cs : List Node, extractBlocksFrom cs source
      = ((preorderFrom cs).filter (fun m => isCommentableNode m.type)).map
          (fun m => blockOf m source)
  | [] => by simp [extractBlocksFrom, preorderFrom]
  | c :: rest => by
    rw [extractBlocksFrom, preorderFrom, extractBlocks_eq_preorder source c,
      extractBlocksFrom_eq_preorder source rest]
    simp
end

/-- C21: `extractBlocks` returns the blocks of the nodes whose type is in the
allow-list, one per such node of the tree, in pre-order, whether or not an
ancestor is in the allow-list; the tree of a class with two methods yields
three units, the class first. -/
theorem C21_units_are_commentable_nodes_in_preorder :
    (∀ (root : Node) (source : Str),
      extractBlocks root source
        = ((preorder root).filter (fun m => isCommentableNode m.type)).map
            (fun m => blockOf m source)) ∧
    (extractBlocks classTree
        "class A:\n    def f():\n        pass\n    def g():\n        pass".toList).map
        (fun b => (b.BlockType, b.Name, b.StartLine))
      = [("class_definition", ['A'], 0), ("function_definition", ['f'], 1),
         ("function_definition", ['g'], 3)] :=
  ⟨fun root source => extractBlocks_eq_preorder source root, by decide⟩

/-- C22, the claim as stated, fails: in `function f() { const x = 1; }` the lexical
declaration is nested in the function body and binds a number, and it is among
the extracted units (with the declaration and its keyword token `function`,
whose node type is in the allow-list as well). -/
theorem C22_nested_const_is_a_unit :
    (extractBlocks nestedConstTree "function f() \x7b\n  const x = 1;\n\x7d".toList).map
        (fun b => (b.BlockType, b.StartLine, b.Code))
      = [("function_declaration", 0, "function f() \x7b\n  const x = 1;\n\x7d".toList),
         ("function", 0, "function".toList),
         ("lexical_declaration", 1, "const x = 1;".toList)] := by
  decide

/-- C22, amended: a node of type `lexical_declaration` becomes a unit wherever it
sits in the tree and whatever it binds: the block of every such node of the
tree is among the extracted units. -/
theorem C22_every_lexical_declaration_is_a_unit (root node : Node) (source : Str)
    (hmem : node ∈ preorder root) (htype : node.type = "lexical_declaration") :
    blockOf node source ∈ extractBlocks root source := by
  rw [extractBlocks_eq_preorder]
  refine List.mem_map.mpr ⟨node, List.mem_filter.mpr ⟨hmem, ?_⟩, rfl⟩
  rw [htype]
  decide

/-! ## The extension tables -/

/-- C23: for the file name `Main.GO`, `IsSupportedFile` accepts the name, the
parser's `getLanguage` on the lower-cased extension yields go and the scanner's
`getLanguageFromExt` yields `go`, but for the extension `clearFile` hands to the
stripper, `.GO` as written, no line pattern and no block delimiters are
registered: the comment line of the file is kept and `clearFile` leaves the
file as it is. -/
theorem C23_upper_case_extension_not_stripped :
    IsSupportedFile "/src/Main.GO".toList = true ∧
    getLanguage (String.mk (toLower (filepathExt "/src/Main.GO".toList))) = some "go" ∧
    getLanguageFromExt (filepathExt "/src/Main.GO".toList) = "go" ∧
    String.mk (filepathExt "/src/Main.GO".toList) = ".GO" ∧
    getLineCommentPattern ".GO" = none ∧
    getBlockCommentPatterns ".GO" = ([], []) ∧
    removeComments "// c\nx".toList ".GO" = ("// c\nx".toList, 0) ∧
    removeComments "// c\nx".toList ".go" = ("x".toList, 1) ∧
    (clearFile (fun p => if p = "/src/Main.GO".toList then some "// c\nx".toList else none)
        "/src/Main.GO".toList .ok .ok).2 = none ∧
    (clearFile (fun p => if p = "/src/Main.GO".toList then some "// c\nx".toList else none)
        "/src/Main.GO".toList .ok .ok).1 "/src/Main.GO".toList = some "// c\nx".toList := by
  decide

/-! ## The write through a temporary file -/

theorem dirPart_append_baseName (path : Str) : dirPart path ++ baseName path = path := by
  simp only [dirPart, baseName]
  rw [← List.reverse_append, List.takeWhile_append_dropWhile, List.reverse_reverse]

theorem tmpPathOf_length (path : Str) : (tmpPathOf path).length = path.length + 12 := by
  have h := congrArg List.length (dirPart_append_baseName path)
  simp only [List.length_append] at h
  simp only [tmpPathOf, List.length_append]
  have h12 : ".annotr-tmp-".toList.length = 12 := by decide
  omega

/-- The temporary file is never the target itself. -/
theorem tmpPathOf_ne (path : Str) : tmpPathOf path ≠ path := by
  intro h
  have := congrArg List.length h
  rw [tmpPathOf_length] at this
  omega

theorem FileSystem.set_same (fs : FileSystem) (path : Str) (entry : Option Str) :
    fs.set path entry path = entry := by
  simp [FileSystem.set]

theorem FileSystem.set_other (fs : FileSystem) (path p : Str) (entry : Option Str)
    (h : p ≠ path) : fs.set path entry p = fs p := by
  simp [FileSystem.set, h]

/-- C24: on a file system given as a map from paths to contents, with outcomes of
the temporary write and of the rename that may each be a failure,
`WriteFile(path, content)` returns no error and leaves `path` holding exactly
`content`, or returns an error and leaves `path` with its previous content; it
succeeds exactly when both steps do; when the rename fails, the temporary file
(`.annotr-tmp-` and the file name, in the directory of `path`) does not exist
afterwards. -/
theorem C24_writeFile_all_or_nothing (fs : FileSystem) (path content : Str)
    (w : WriteOutcome) (r : RenameOutcome) :
    (((WriteFile fs path content w r).2 = none ∧
        (WriteFile fs path content w r).1 path = some content) ∨
      ((WriteFile fs path content w r).2 ≠ none ∧
        (WriteFile fs path content w r).1 path = fs path)) ∧
    ((WriteFile fs path content w r).2 = none ↔ w = .ok ∧ r = .ok) ∧
    (w = .ok → r = .failed → (WriteFile fs path content w r).1 (tmpPathOf path) = none) ∧
    tmpPathOf path = dirPart path ++ ".annotr-tmp-".toList ++ baseName path ∧
    dirPart path ++ baseName path = path := by
  have hne : path ≠ tmpPathOf path := fun h => tmpPathOf_ne path h.symm
  refine ⟨?_, ?_, ?_, rfl, dirPart_append_baseName path⟩
  · cases w with
    | failed residue =>
      right
      exact ⟨by simp [WriteFile], by simp [WriteFile, FileSystem.set_other _ _ _ _ hne]⟩
    | ok =>
      cases r with
      | failed =>
        right
        exact ⟨by simp [WriteFile], by simp [WriteFile, FileSystem.set_other _ _ _ _ hne]⟩
      | ok =>
        left
        exact ⟨by simp [WriteFile], by simp [WriteFile, FileSystem.set_same]⟩
  · cases w <;> cases r <;> simp [WriteFile]
  · intro hw hr
    subst hw hr
    simp [WriteFile, FileSystem.set_same]

/-! ## Kept lines, block comments and unterminated block comments -/

/-- Outside a block comment, a line that is neither a block opening nor a line
comment is kept, and nothing else changes. -/
theorem stripLine_of_keptOutside (pat : Option Str) (bs be : Str) (st : StripState)
    (line : Str) (hk : keptOutside pat bs be line = true) (hst : st.inBlockComment = false) :
    stripLine pat bs be st line = { st with result := st.result ++ [line] } := by
  cases pat with
  | none =>
    simp only [keptOutside, Bool.and_true, Bool.not_eq_true', Bool.and_eq_false_iff,
      decide_eq_false_iff_not] at hk
    simp only [stripLine, lineCommentStep, hst]
    by_cases hb : bs ≠ [] ∧ be ≠ []
    · have hp : hasPrefix (trimSpace line) bs = false := hk.resolve_left (fun h => h hb)
      simp [hb, hp]
    · simp [hb]
  | some lit =>
    simp only [keptOutside, Bool.and_eq_true, Bool.not_eq_true', Bool.and_eq_false_iff,
      decide_eq_false_iff_not] at hk
    obtain ⟨hk1, hk2⟩ := hk
    simp only [stripLine, lineCommentStep, hst, hk2]
    by_cases hb : bs ≠ [] ∧ be ≠ []
    · have hp : hasPrefix (trimSpace line) bs = false := hk1.resolve_left (fun h => h hb)
      simp [hb, hp]
    · simp [hb]

/-- Outside a block comment, a run of lines that are neither block openings nor
line comments is kept as it is. -/
theorem foldl_stripLine_kept (pat : Option Str) (bs be : Str) (lines : List Str)
    (hk : ∀ l ∈ lines, keptOutside pat bs be l = true) :
    ∀ st : StripState, st.inBlockComment = false →
      lines.foldl (stripLine pat bs be) st = { st with result := st.result ++ lines } := by
  induction lines with
  | nil => intro st _; simp
  | cons l ls ih =>
    intro st hst
    rw [List.foldl_cons, stripLine_of_keptOutside pat bs be st l (hk l (List.mem_cons_self _ _)) hst,
      ih (fun l' hl' => hk l' (List.mem_cons_of_mem _ hl'))
        { st with result := st.result ++ [l] } hst]
    simp

theorem patterns_of_cFamily (ext : String) (h : ext ∈ cFamilyExts) :
    getLineCommentPattern ext = some ['/', '/'] ∧
    getBlockCommentPatterns ext = (['/', '*'], ['*', '/']) := by
  simp only [cFamilyExts, List.mem_cons, List.mem_singleton, List.mem_nil_iff, or_false] at h
  rcases h with rfl | rfl | rfl | rfl <;> exact ⟨rfl, rfl⟩

/-- The loop of `removeComments` on code lines, a block comment and code lines. -/
theorem stripLines_code_block_code (ext : String) (pre post interior : List Str)
    (opening closing : Str) (hext : ext ∈ cFamilyExts)
    (hcode : ∀ l ∈ pre ++ post, hasPrefix (trimSpace l) ['/', '*'] = false ∧
      hasPrefix (trimSpace l) ['/', '/'] = false)
    (hopen : hasPrefix (trimSpace opening) ['/', '*'] = true ∧
      hasSuffix (trimSpace opening) ['*', '/'] = false)
    (hint : ∀ l ∈ interior, hasPrefix (trimSpace l) ['/', '*'] = false ∧
      hasSuffix (trimSpace l) ['*', '/'] = false)
    (hclose : hasSuffix (trimSpace closing) ['*', '/'] = true ∧
      hasPrefix (trimSpace closing) ['/', '*'] = false) :
    stripLines ext ⟨[], 0, false⟩ (pre ++ opening :: (interior ++ closing :: post))
      = ⟨pre ++ post, 1, false⟩ := by
  obtain ⟨hpat, hblk⟩ := patterns_of_cFamily ext hext
  have hkept : ∀ l ∈ pre ++ post,
      keptOutside (some ['/', '/']) ['/', '*'] ['*', '/'] l = true := by
    intro l hl
    obtain ⟨h1, h2⟩ := hcode l hl
    simp [keptOutside, matchString, h1, h2]
  rw [stripLines_eq_foldl, hpat, hblk]
  simp only
  rw [List.foldl_append,
    foldl_stripLine_kept _ _ _ pre (fun l hl => hkept l (List.mem_append_left _ hl)) _ rfl]
  have hsplit : opening :: (interior ++ closing :: post)
      = (opening :: (interior ++ [closing])) ++ post := by simp
  rw [hsplit, List.foldl_append,
    foldl_stripLine_block_comment _ _ _ (by simp) (by simp) opening closing interior
      hopen.1 hopen.2 hint hclose.2 hclose.1 _ rfl,
    foldl_stripLine_kept _ _ _ post (fun l hl => hkept l (List.mem_append_right _ hl)) _ rfl]
  simp

/-- C25, the claim as stated, fails: in a go buffer whose code lines hold three
blank lines in a row before the block comment, two of these blank lines are
missing from the returned text as well. -/
theorem C25_blank_code_lines_dropped :
    splitLines "a\n\n\n\nb\n/* c\nd\ne */\nf".toList
      = ["a".toList, [], [], [], "b".toList] ++ "/* c".toList
          :: (["d".toList] ++ "e */".toList :: ["f".toList]) ∧
    removeComments "a\n\n\n\nb\n/* c\nd\ne */\nf".toList ".go" = ("a\n\nb\nf".toList, 1) ∧
    splitLines (removeComments "a\n\n\n\nb\n/* c\nd\ne */\nf".toList ".go").1
      ≠ ["a".toList, [], [], [], "b".toList] ++ ["f".toList] := by
  decide

/-- The pass emits no more newlines at the start than the text holds there. -/
theorem leadingNewlines_collapseNewlines (t : Str) :
    ∀ n, leadingNewlines (collapseNewlines n t) ≤ leadingNewlines t := by
  induction t with
  | nil => intro n; simp [collapseNewlines, leadingNewlines]
  | cons c cs ih =>
    intro n
    by_cases hc : c = '\n'
    · subst hc
      by_cases hn : n < 2
      · rw [collapseNewlines_nl_lt n cs hn]
        simp only [leadingNewlines, if_true]
        have := ih (n + 1)
        omega
      · rw [collapseNewlines_nl_ge n cs (by omega)]
        simp only [leadingNewlines, if_true]
        have := ih (n + 1)
        omega
    · rw [collapseNewlines_cons_ne n c cs hc]
      simp [leadingNewlines, hc]

theorem leadingNewlines_of_double_prefix (t : Str) (h : ['\n', '\n'] <+: t) :
    2 ≤ leadingNewlines t := by
  obtain ⟨r, rfl⟩ := h
  simp [leadingNewlines]

/-- Joining empty lines in front of further lines gives one newline per empty
line. -/
theorem joinLines_replicate_nil_append (m : Nat) (b : List Str) (hb : b ≠ []) :
    joinLines (List.replicate m [] ++ b) = List.replicate m '\n' ++ joinLines b := by
  induction m with
  | zero => simp
  | succ m ih =>
    rw [List.replicate_succ, List.cons_append,
      joinLines_cons_of_ne_nil _ _ (by simp [hb]), ih, List.replicate_succ]
    rfl

/-- The joined text of lines around a run of `m` empty lines. -/
theorem joinLines_around_empty_run (a b : List Str) (m : Nat) (ha : a ≠ []) (hb : b ≠ []) :
    joinLines (a ++ (List.replicate m [] ++ b))
      = joinLines a ++ List.replicate (m + 1) '\n' ++ joinLines b := by
  rw [joinLines_append a _ ha (by simp [hb]), joinLines_replicate_nil_append m b hb,
    List.replicate_succ]
  simp

/-- The joined text of newline-free lines whose last line is not empty does not
end with a newline. -/
theorem getLast?_joinLines (a : List Str) (last : Str) (hlast : a.getLast? = some last)
    (hne : last ≠ []) (hnl : '\n' ∉ last) : (joinLines a).getLast? ≠ some '\n' := by
  have hsplit : a.dropLast ++ [last] = a :=
    List.dropLast_append_getLast? last (by simp [hlast])
  have hend : (joinLines a).getLast? = last.getLast? := by
    rw [← hsplit]
    by_cases hd : a.dropLast = []
    · rw [hd]
      rfl
    · rw [joinLines_append _ _ hd (by simp)]
      have hj : joinLines [last] = last := rfl
      have hassoc : joinLines a.dropLast ++ '\n' :: last
          = (joinLines a.dropLast ++ ['\n']) ++ last := by simp
      rw [hj, hassoc, List.getLast?_append_of_ne_nil _ hne]
  rw [hend]
  intro h
  exact hnl (List.mem_of_mem_getLast? h)

/-- The joined text of lines whose first line is not empty and newline-free does
not start with a newline. -/
theorem head?_joinLines (b : List Str) (first : Str) (hfirst : b.head? = some first)
    (hne : first ≠ []) (hnl : '\n' ∉ first) : (joinLines b).head? ≠ some '\n' := by
  obtain ⟨c, cs, rfl⟩ := List.exists_cons_of_ne_nil hne
  have hc : c ≠ '\n' := fun h => hnl (by simp [h])
  cases b with
  | nil => simp at hfirst
  | cons x rest =>
    simp only [List.head?_cons, Option.some.injEq] at hfirst
    subst hfirst
    cases rest with
    | nil =>
      simp only [joinLines, List.head?_cons, ne_eq, Option.some.injEq]
      exact hc
    | cons y ys =>
      simp only [joinLines_cons_cons, List.cons_append, List.head?_cons, ne_eq,
        Option.some.injEq]
      exact hc

/-- C25, amended: for a C-family extension and a buffer made of code lines that are
not comment-like, a block comment (an opening line starting with `/*` and not
ending with `*/`, interior lines that neither start with `/*` nor end with
`*/`, a closing line ending with `*/` and not starting with `/*`) and further
code lines, whose code lines do not begin with two empty lines (a run of blank
lines at the very start of the text is left out): the pass of `removeComments`
over the lines drops exactly the lines of the block comment and keeps every
code line in order, the count is 1, and the returned text is these code lines
joined, with every run of empty lines between two non-empty code lines (the
run left behind by the comment like any other) collapsed to one blank line, so
that it holds no two blank lines in a row: it neither begins with two newlines
nor holds three consecutive newlines. -/
theorem C25_block_comment_between_code (source : Str) (ext : String)
    (pre post interior : List Str) (opening closing : Str)
    (hext : ext ∈ cFamilyExts)
    (hsrc : splitLines source = pre ++ opening :: (interior ++ closing :: post))
    (hcode : ∀ l ∈ pre ++ post, hasPrefix (trimSpace l) ['/', '*'] = false ∧
      hasPrefix (trimSpace l) ['/', '/'] = false)
    (hopen : hasPrefix (trimSpace opening) ['/', '*'] = true ∧
      hasSuffix (trimSpace opening) ['*', '/'] = false)
    (hint : ∀ l ∈ interior, hasPrefix (trimSpace l) ['/', '*'] = false ∧
      hasSuffix (trimSpace l) ['*', '/'] = false)
    (hclose : hasSuffix (trimSpace closing) ['*', '/'] = true ∧
      hasPrefix (trimSpace closing) ['/', '*'] = false)
    (hlead : leadingNewlines (joinLines (pre ++ post)) < 2) :
    (stripLines ext ⟨[], 0, false⟩ (splitLines source)).result = pre ++ post ∧
    (removeComments source ext).2 = 1 ∧
    (removeComments source ext).1 = removeExcessiveBlankLines (joinLines (pre ++ post)) ∧
    (∀ (a b : List Str) (m : Nat), pre ++ post = a ++ (List.replicate m [] ++ b) →
      (∃ l, a.getLast? = some l ∧ l ≠ []) → (∃ l, b.head? = some l ∧ l ≠ []) →
      (removeComments source ext).1
        = removeExcessiveBlankLines (joinLines a) ++ List.replicate (min (m + 1) 2) '\n'
          ++ removeExcessiveBlankLines (joinLines b)) ∧
    ¬ ['\n', '\n'] <+: (removeComments source ext).1 ∧
    ¬ ['\n', '\n', '\n'] <:+: (removeComments source ext).1 := by
  have h := stripLines_code_block_code ext pre post interior opening closing hext hcode hopen
    hint hclose
  have hout : (removeComments source ext).1
      = removeExcessiveBlankLines (joinLines (pre ++ post)) := by
    simp only [removeComments, hsrc, h]
  have hnl : ∀ l ∈ pre ++ post, '\n' ∉ l := by
    intro l hl
    apply no_nl_of_mem_splitLines source l
    rw [hsrc]
    rcases List.mem_append.mp hl with hp | hp
    · exact List.mem_append_left _ hp
    · exact List.mem_append_right _
        (List.mem_cons_of_mem _ (List.mem_append_right _ (List.mem_cons_of_mem _ hp)))
  refine ⟨by rw [hsrc, h], by simp only [removeComments, hsrc, h], hout, ?_, ?_, ?_⟩
  · rintro a b m hab ⟨la, hla, hlane⟩ ⟨fb, hfb, hfbne⟩
    have ha : a ≠ [] := by
      intro h0
      rw [h0] at hla
      simp at hla
    have hb : b ≠ [] := by
      intro h0
      rw [h0] at hfb
      simp at hfb
    have hla_mem : la ∈ pre ++ post := by
      rw [hab]
      exact List.mem_append_left _ (List.mem_of_mem_getLast? (by simp [hla]))
    have hfb_mem : fb ∈ pre ++ post := by
      rw [hab]
      exact List.mem_append_right _ (List.mem_append_right _ (List.mem_of_mem_head? (by simp [hfb])))
    have hrun := removeExcessiveBlankLines_run (joinLines a) (joinLines b) (m + 1)
      (getLast?_joinLines a la hla hlane (hnl la hla_mem))
      (head?_joinLines b fb hfb hfbne (hnl fb hfb_mem))
    have hmin : (if 3 ≤ m + 1 then 2 else m + 1) = min (m + 1) 2 := by
      split <;> omega
    rw [hout, hab, joinLines_around_empty_run a b m ha hb, hrun, hmin]
  · intro hpre
    have h2 := leadingNewlines_of_double_prefix _ hpre
    rw [hout, removeExcessiveBlankLines] at h2
    have := leadingNewlines_collapseNewlines (joinLines (pre ++ post)) 0
    omega
  · rw [hout]
    exact (collapseNewlines_bound _ 0).2

/-- C25 amended, at a block comment of three lines between code lines, with an
empty line on each side: the two empty lines left behind become one blank
line. -/
theorem C25_block_comment_between_code_witness :
    ".go" ∈ cFamilyExts ∧
    leadingNewlines (joinLines (["x := 1".toList, []] ++ [[], "y := 2".toList])) < 2 ∧
    (removeComments "x := 1\n\n/* a\nb\nc */\n\ny := 2".toList ".go").2 = 1 ∧
    (removeComments "x := 1\n\n/* a\nb\nc */\n\ny := 2".toList ".go").1
      = "x := 1\n\ny := 2".toList ∧
    ¬ ['\n', '\n'] <+: (removeComments "x := 1\n\n/* a\nb\nc */\n\ny := 2".toList ".go").1 :=
  ⟨by decide, by decide,
    (C25_block_comment_between_code "x := 1\n\n/* a\nb\nc */\n\ny := 2".toList ".go"
      ["x := 1".toList, []] [[], "y := 2".toList] ["b".toList] "/* a".toList "c */".toList
      (by decide) (by decide) (by decide) (by decide) (by decide) (by decide)
      (by decide)).2.1,
    ((C25_block_comment_between_code "x := 1\n\n/* a\nb\nc */\n\ny := 2".toList ".go"
      ["x := 1".toList, []] [[], "y := 2".toList] ["b".toList] "/* a".toList "c */".toList
      (by decide) (by decide) (by decide) (by decide) (by decide) (by decide)
      (by decide)).2.2.2.1 ["x := 1".toList] ["y := 2".toList] 2 (by decide)
      ⟨_, rfl, by decide⟩ ⟨_, rfl, by decide⟩).trans (by decide),
    (C25_block_comment_between_code "x := 1\n\n/* a\nb\nc */\n\ny := 2".toList ".go"
      ["x := 1".toList, []] [[], "y := 2".toList] ["b".toList] "/* a".toList "c */".toList
      (by decide) (by decide) (by decide) (by decide) (by decide) (by decide)
      (by decide)).2.2.2.2.1⟩

theorem patterns_nonempty_of_registered (ext : String) (h : ext ∈ registeredExts) :
    (getBlockCommentPatterns ext).1 ≠ [] ∧ (getBlockCommentPatterns ext).2 ≠ [] := by
  simp only [registeredExts, List.mem_cons, List.mem_singleton, List.mem_nil_iff, or_false] at h
  rcases h with rfl | rfl | rfl | rfl | rfl <;> decide

/-- Inside a block comment, a line that does not end with the block close is
dropped and the stripper stays inside. -/
theorem stripLine_in_block_stays (pat : Option Str) (bs be : Str) (st : StripState)
    (line : Str) (hbs : bs ≠ []) (hbe : be ≠ []) (hst : st.inBlockComment = true)
    (hs : hasSuffix (trimSpace line) be = false) :
    (stripLine pat bs be st line).result = st.result ∧
    (stripLine pat bs be st line).inBlockComment = true := by
  by_cases hp : hasPrefix (trimSpace line) bs = true
  · rw [stripLine_block_open pat bs be st line hbs hbe hp hs]
    exact ⟨rfl, rfl⟩
  · rw [stripLine_in_block_keep pat bs be st line hbs hbe hst (by simpa using hp) hs]
    exact ⟨rfl, hst⟩

/-- Inside a block comment, lines of which none ends with the block close are all
dropped and the stripper is still inside after them. -/
theorem foldl_stripLine_unterminated (pat : Option Str) (bs be : Str) (hbs : bs ≠ [])
    (hbe : be ≠ []) (lines : List Str)
    (hs : ∀ l ∈ lines, hasSuffix (trimSpace l) be = false) :
    ∀ st : StripState, st.inBlockComment = true →
      (lines.foldl (stripLine pat bs be) st).result = st.result ∧
      (lines.foldl (stripLine pat bs be) st).inBlockComment = true := by
  induction lines with
  | nil => intro st hst; exact ⟨rfl, hst⟩
  | cons l ls ih =>
    intro st hst
    obtain ⟨h1, h2⟩ := stripLine_in_block_stays pat bs be st l hbs hbe hst
      (hs l (List.mem_cons_self _ _))
    obtain ⟨h3, h4⟩ := ih (fun l' hl' => hs l' (List.mem_cons_of_mem _ hl')) _ h2
    rw [List.foldl_cons]
    exact ⟨h3.trans h1, h4⟩

/-- C26: for a supported extension and a buffer in which a line opens a block
comment (its trimmed form starts with the block opening and does not end with
the block close) and no later line ends, trimmed, with the block close,
`removeComments` returns a text: the opening line and every line after it are
dropped, the stripper ends inside the block comment, and the returned text is
made of the lines kept before the opening line only. -/
theorem C26_unterminated_block_comment (source : Str) (ext : String) (pre post : List Str)
    (opening : Str) (hext : ext ∈ registeredExts)
    (hsrc : splitLines source = pre ++ opening :: post)
    (hopen : hasPrefix (trimSpace opening) (getBlockCommentPatterns ext).1 = true ∧
      hasSuffix (trimSpace opening) (getBlockCommentPatterns ext).2 = false)
    (hpost : ∀ l ∈ post, hasSuffix (trimSpace l) (getBlockCommentPatterns ext).2 = false) :
    (stripLines ext ⟨[], 0, false⟩ (splitLines source)).result
      = (stripLines ext ⟨[], 0, false⟩ pre).result ∧
    (stripLines ext ⟨[], 0, false⟩ (splitLines source)).inBlockComment = true ∧
    (removeComments source ext).1
      = removeExcessiveBlankLines (joinLines (stripLines ext ⟨[], 0, false⟩ pre).result) := by
  obtain ⟨hbs, hbe⟩ := patterns_nonempty_of_registered ext hext
  have hrun : (stripLines ext ⟨[], 0, false⟩ (splitLines source)).result
        = (stripLines ext ⟨[], 0, false⟩ pre).result ∧
      (stripLines ext ⟨[], 0, false⟩ (splitLines source)).inBlockComment = true := by
    rw [hsrc, stripLines_append, stripLines_cons,
      stripLine_block_open _ _ _ _ opening hbs hbe hopen.1 hopen.2, stripLines_eq_foldl]
    exact foldl_stripLine_unterminated _ _ _ hbs hbe post hpost _ rfl
  refine ⟨hrun.1, hrun.2, ?_⟩
  simp only [removeComments]
  rw [hrun.1]

/-- C26 at Scenario D: a python file whose docstring is never closed. -/
theorem C26_unterminated_block_comment_witness :
    ".py" ∈ registeredExts ∧
    (removeComments "x = 1\n\"\"\"doc\nmore\ny = 2".toList ".py").1
      = removeExcessiveBlankLines
          (joinLines (stripLines ".py" ⟨[], 0, false⟩ ["x = 1".toList]).result) ∧
    (removeComments "x = 1\n\"\"\"doc\nmore\ny = 2".toList ".py").1 = "x = 1".toList :=
  ⟨by decide,
    (C26_unterminated_block_comment "x = 1\n\"\"\"doc\nmore\ny = 2".toList ".py"
      ["x = 1".toList] ["more".toList, "y = 2".toList] "\"\"\"doc".toList (by decide)
      (by decide) (by decide) (by decide)).2.2,
    by decide⟩

/-! ## A second pass of the stripper -/

/-- A line is dropped, or it is kept and is then neither a block opening nor a
line comment. -/
theorem stripLine_kept_or_not (pat : Option Str) (bs be : Str) (st : StripState) (line : Str) :
    (stripLine pat bs be st line).result = st.result ∨
    ((stripLine pat bs be st line).result = st.result ++ [line] ∧
      keptOutside pat bs be line = true) := by
  by_cases hb : bs ≠ [] ∧ be ≠ []
  · by_cases hp : hasPrefix (trimSpace line) bs = true
    · left
      by_cases hs : hasSuffix (trimSpace line) be = true
      · rw [stripLine_single_block pat bs be st line hb.1 hb.2 hp hs]
      · rw [stripLine_block_open pat bs be st line hb.1 hb.2 hp (by simpa using hs)]
    · have hp' : hasPrefix (trimSpace line) bs = false := by simpa using hp
      cases pat with
      | none =>
        simp only [stripLine, lineCommentStep, keptOutside, hp']
        split_ifs <;> simp
      | some lit =>
        simp only [stripLine, lineCommentStep, keptOutside, hp']
        split_ifs <;> simp_all
  · cases pat with
    | none => simp [stripLine, lineCommentStep, keptOutside, hb]
    | some lit =>
      simp only [stripLine, lineCommentStep, keptOutside, hb]
      split_ifs <;> simp_all

/-- The lines kept by a run of the loop are neither block openings nor line
comments. -/
theorem foldl_stripLine_kept_lines (pat : Option Str) (bs be : Str) (lines : List Str) :
    ∀ st : StripState, ∃ kept, kept.Sublist lines ∧
      (lines.foldl (stripLine pat bs be) st).result = st.result ++ kept ∧
      ∀ l ∈ kept, keptOutside pat bs be l = true := by
  induction lines with
  | nil => intro st; exact ⟨[], List.Sublist.slnil, by simp, by simp⟩
  | cons l ls ih =>
    intro st
    obtain ⟨kept, hsub, hres, hall⟩ := ih (stripLine pat bs be st l)
    rw [List.foldl_cons, hres]
    rcases stripLine_kept_or_not pat bs be st l with h | ⟨h, hk⟩
    · exact ⟨kept, hsub.cons l, by rw [h], hall⟩
    · refine ⟨l :: kept, hsub.cons₂ l, by rw [h]; simp, ?_⟩
      intro x hx
      rcases List.mem_cons.mp hx with rfl | hx
      · exact hk
      · exact hall x hx

theorem trimSpace_nil : trimSpace [] = [] := rfl

/-- An empty line is neither a block opening nor a line comment. -/
theorem keptOutside_nil (ext : String) :
    keptOutside (getLineCommentPattern ext) (getBlockCommentPatterns ext).1
      (getBlockCommentPatterns ext).2 [] = true := by
  have hp : ∀ bs : Str, bs ≠ [] → hasPrefix [] bs = false := by
    intro bs hbs
    cases bs with
    | nil => exact absurd rfl hbs
    | cons b bs => rfl
  have hblk : (!(decide ((getBlockCommentPatterns ext).1 ≠ [] ∧ (getBlockCommentPatterns ext).2 ≠ [])
      && hasPrefix [] (getBlockCommentPatterns ext).1)) = true := by
    by_cases hb : (getBlockCommentPatterns ext).1 ≠ []
    · simp [hp _ hb]
    · simp [hb]
  have hpat : getLineCommentPattern ext = none ∨ getLineCommentPattern ext = some ['/', '/'] ∨
      getLineCommentPattern ext = some ['#'] := by
    unfold getLineCommentPattern
    split <;> simp
  simp only [keptOutside, trimSpace_nil, hblk, Bool.true_and]
  rcases hpat with h | h | h <;> rw [h] <;> rfl

/-- C27: stripping is idempotent: for every buffer and every extension,
`removeComments` applied to the text it returned gives that text back, with a
removed count of 0. -/
theorem C27_strip_idempotent (source : Str) (ext : String) :
    removeComments (removeComments source ext).1 ext = ((removeComments source ext).1, 0) := by
  obtain ⟨kept, hsub, hres, hall⟩ := foldl_stripLine_kept_lines (getLineCommentPattern ext)
    (getBlockCommentPatterns ext).1 (getBlockCommentPatterns ext).2 (splitLines source)
    ⟨[], 0, false⟩
  simp only [List.nil_append] at hres
  have hout : (removeComments source ext).1 = collapseNewlines 0 (joinLines kept) := by
    simp only [removeComments, removeExcessiveBlankLines, stripLines_eq_foldl, hres]
  have hfix : collapseNewlines 0 (collapseNewlines 0 (joinLines kept))
      = collapseNewlines 0 (joinLines kept) := by
    obtain ⟨h1, h2⟩ := collapseNewlines_bound (joinLines kept) 0
    exact collapseNewlines_fixed _ 0 (by omega) h2
  have hlines : ∀ l ∈ splitLines (collapseNewlines 0 (joinLines kept)),
      keptOutside (getLineCommentPattern ext) (getBlockCommentPatterns ext).1
        (getBlockCommentPatterns ext).2 l = true := by
    by_cases hk : kept = []
    · subst hk
      intro l hl
      simp only [joinLines, collapseNewlines_nil, splitLines, List.mem_singleton] at hl
      rw [hl]
      exact keptOutside_nil ext
    · intro l hl
      have hs := (splitLines_collapseNewlines (joinLines kept) 0).1
      rw [splitLines_joinLines kept hk
        (fun x hx => no_nl_of_mem_splitLines source x (hsub.subset hx))] at hs
      exact hall l (hs.subset hl)
  rw [hout]
  simp only [removeComments, removeExcessiveBlankLines, stripLines_eq_foldl]
  rw [foldl_stripLine_kept _ _ _ _ hlines ⟨[], 0, false⟩ rfl]
  simp only [List.nil_append, joinLines_splitLines, hfix]

/-! ## The removed count and the dropped lines -/

/-- One iteration keeps the line, or drops and counts it, or drops it uncounted
inside a block comment. -/
theorem stripLine_cases (pat : Option Str) (bs be : Str) (st : StripState) (line : Str) :
    stripLine pat bs be st line = { st with result := st.result ++ [line] } ∨
    ((stripLine pat bs be st line).result = st.result ∧
      (stripLine pat bs be st line).count = st.count + 1) ∨
    ((stripLine pat bs be st line).result = st.result ∧
      (stripLine pat bs be st line).count = st.count ∧ st.inBlockComment = true) := by
  by_cases hb : bs ≠ [] ∧ be ≠ []
  · by_cases hp : hasPrefix (trimSpace line) bs = true
    · right; left
      by_cases hs : hasSuffix (trimSpace line) be = true
      · rw [stripLine_single_block pat bs be st line hb.1 hb.2 hp hs]
        exact ⟨rfl, rfl⟩
      · rw [stripLine_block_open pat bs be st line hb.1 hb.2 hp (by simpa using hs)]
        exact ⟨rfl, rfl⟩
    · have hp' : hasPrefix (trimSpace line) bs = false := by simpa using hp
      by_cases hflag : st.inBlockComment = true
      · right; right
        by_cases hs : hasSuffix (trimSpace line) be = true
        · rw [stripLine_in_block_close pat bs be st line hb.1 hb.2 hflag hp' hs]
          exact ⟨rfl, rfl, hflag⟩
        · rw [stripLine_in_block_keep pat bs be st line hb.1 hb.2 hflag hp' (by simpa using hs)]
          exact ⟨rfl, rfl, hflag⟩
      · have hflag : st.inBlockComment = false := by simpa using hflag
        cases pat with
        | none =>
          left
          rw [stripLine_of_keptOutside none bs be st line (by simp [keptOutside, hp']) hflag]
        | some lit =>
          by_cases hm : matchString lit (trimSpace line) = true
          · right; left
            rw [stripLine_line_comment lit bs be st line hflag hm hp']
            exact ⟨rfl, rfl⟩
          · left
            rw [stripLine_of_keptOutside (some lit) bs be st line
              (by simp [keptOutside, hp', hm]) hflag]
  · cases pat with
    | none =>
      left
      simp [stripLine, lineCommentStep, hb]
    | some lit =>
      by_cases hm : matchString lit (trimSpace line) = true
      · right; left
        simp [stripLine, lineCommentStep, hb, hm]
      · left
        simp [stripLine, lineCommentStep, hb, hm]

/-- Over a run of lines the count does not decrease, and the count and the kept
lines together grow by at most the number of lines; when the run starts
outside a block comment and the count has not grown, every line was kept. -/
theorem foldl_stripLine_count (pat : Option Str) (bs be : Str) (lines : List Str) :
    ∀ st : StripState,
      st.count ≤ (lines.foldl (stripLine pat bs be) st).count ∧
      (lines.foldl (stripLine pat bs be) st).count
          + (lines.foldl (stripLine pat bs be) st).result.length
        ≤ st.count + st.result.length + lines.length ∧
      (st.inBlockComment = false → (lines.foldl (stripLine pat bs be) st).count = st.count →
        (lines.foldl (stripLine pat bs be) st).result = st.result ++ lines) := by
  induction lines with
  | nil => intro st; simp
  | cons l ls ih =>
    intro st
    obtain ⟨h1, h2, h3⟩ := ih (stripLine pat bs be st l)
    rw [List.foldl_cons]
    rcases stripLine_cases pat bs be st l with hk | ⟨hr, hc⟩ | ⟨hr, hc, hf⟩
    · rw [hk] at h1 h2 h3 ⊢
      dsimp only at h1 h2 h3
      simp only [List.length_append, List.length_singleton, List.length_cons,
        List.length_nil] at h2 ⊢
      refine ⟨h1, by omega, fun hf hcount => ?_⟩
      rw [h3 hf hcount]
      simp
    · rw [hc] at h1
      rw [hc, hr] at h2
      simp only [List.length_cons]
      exact ⟨by omega, by omega, fun _ hcount => by omega⟩
    · rw [hc] at h1
      rw [hc, hr] at h2
      simp only [List.length_cons]
      refine ⟨h1, by omega, fun hf' _ => ?_⟩
      rw [hf] at hf'
      exact absurd hf' (by decide)

/-- The removed count against the dropped lines, for the loop of
`removeComments` on a buffer. -/
theorem stripLines_count_dropped (source : Str) (ext : String) :
    (stripLines ext ⟨[], 0, false⟩ (splitLines source)).count
        + (stripLines ext ⟨[], 0, false⟩ (splitLines source)).result.length
      ≤ (splitLines source).length ∧
    ((stripLines ext ⟨[], 0, false⟩ (splitLines source)).count = 0 ↔
      (stripLines ext ⟨[], 0, false⟩ (splitLines source)).result = splitLines source) := by
  obtain ⟨-, h2, h3⟩ := foldl_stripLine_count (getLineCommentPattern ext)
    (getBlockCommentPatterns ext).1 (getBlockCommentPatterns ext).2 (splitLines source)
    ⟨[], 0, false⟩
  rw [← stripLines_eq_foldl] at h2 h3
  dsimp only at h2 h3
  simp only [List.length_nil, Nat.zero_add, Nat.add_zero, List.nil_append] at h2 h3
  refine ⟨h2, fun h => h3 trivial h, fun h => ?_⟩
  rw [h] at h2
  omega

/-- C28: the count `removeComments` returns never exceeds the number of lines its
pass dropped, and it is 0 exactly when the pass dropped no line; `clearFile`
on a supported file that can be read therefore leaves the file system as it is
when no line was dropped (also when the blank-line normalisation would change
the text) and otherwise does what `WriteFile` does with the cleaned text. -/
theorem C28_count_and_rewrite (fs : FileSystem) (absPath source : Str)
    (w : WriteOutcome) (r : RenameOutcome)
    (hsup : IsSupportedFile absPath = true) (hfile : fs absPath = some source) :
    (∀ (buffer : Str) (ext : String),
      (removeComments buffer ext).2
          + (stripLines ext ⟨[], 0, false⟩ (splitLines buffer)).result.length
        ≤ (splitLines buffer).length ∧
      ((removeComments buffer ext).2 = 0 ↔
        (stripLines ext ⟨[], 0, false⟩ (splitLines buffer)).result = splitLines buffer)) ∧
    ((stripLines (String.mk (filepathExt absPath)) ⟨[], 0, false⟩ (splitLines source)).result
        = splitLines source →
      clearFile fs absPath w r = (fs, none)) ∧
    ((stripLines (String.mk (filepathExt absPath)) ⟨[], 0, false⟩ (splitLines source)).result
        ≠ splitLines source →
      clearFile fs absPath w r
        = WriteFile fs absPath (removeComments source (String.mk (filepathExt absPath))).1
            w r) := by
  have hcount := stripLines_count_dropped source (String.mk (filepathExt absPath))
  refine ⟨fun buffer ext => stripLines_count_dropped buffer ext, fun h => ?_, fun h => ?_⟩
  · have h0 : (removeComments source (String.mk (filepathExt absPath))).2 = 0 :=
      hcount.2.mpr h
    simp [clearFile, hsup, hfile, h0]
  · have h0 : (removeComments source (String.mk (filepathExt absPath))).2 > 0 := by
      have : (removeComments source (String.mk (filepathExt absPath))).2 ≠ 0 :=
        fun hc => h (hcount.2.mp hc)
      omega
    simp [clearFile, hsup, hfile, h0]

/-- C28 at a go file that needs blank-line normalisation only: nothing is written. -/
theorem C28_count_and_rewrite_witness :
    IsSupportedFile "/src/a.go".toList = true ∧
    (removeComments "a\n\n\n\nb".toList ".go") = ("a\n\nb".toList, 0) ∧
    (clearFile (fun p => if p = "/src/a.go".toList then some "a\n\n\n\nb".toList else none)
        "/src/a.go".toList .ok .ok)
      = ((fun p => if p = "/src/a.go".toList then some "a\n\n\n\nb".toList else none), none) :=
  ⟨by decide, by decide,
    (C28_count_and_rewrite
      (fun p => if p = "/src/a.go".toList then some "a\n\n\n\nb".toList else none)
      "/src/a.go".toList "a\n\n\n\nb".toList .ok .ok (by decide) (by decide)).2.1 (by decide)⟩

/-- C22 amended, at the function `function f() { const x = 1; }`: the nested
declaration of `x` is a unit. -/
theorem C22_every_lexical_declaration_is_a_unit_witness :
    blockOf
        (.mk "lexical_declaration" ⟨1, 2⟩ ⟨1, 14⟩ 17 29
          [.mk "const" ⟨1, 2⟩ ⟨1, 7⟩ 17 22 [],
           .mk "variable_declarator" ⟨1, 8⟩ ⟨1, 13⟩ 23 28
            [.mk "identifier" ⟨1, 8⟩ ⟨1, 9⟩ 23 24 [],
             .mk "=" ⟨1, 10⟩ ⟨1, 11⟩ 25 26 [],
             .mk "number" ⟨1, 12⟩ ⟨1, 13⟩ 27 28 []],
           .mk ";" ⟨1, 13⟩ ⟨1, 14⟩ 28 29 []])
        "function f() \x7b\n  const x = 1;\n\x7d".toList
      ∈ extractBlocks nestedConstTree "function f() \x7b\n  const x = 1;\n\x7d".toList :=
  C22_every_lexical_declaration_is_a_unit nestedConstTree _ _
    (by simp [nestedConstTree, preorder, preorderFrom]) rfl

/-- The tables of the parser and of the scanner agree with `IsSupportedFile` on
every file name. -/
theorem parser_scanner_tables_agree (filename : Str) :
    IsSupportedFile filename
      = (getLanguage (String.mk (toLower (filepathExt filename)))).isSome ∧
    getLanguageFromExt (filepathExt filename)
      = (getLanguage (String.mk (toLower (filepathExt filename)))).getD "" := by
  simp only [IsSupportedFile, getLanguageFromExt]
  generalize String.mk (toLower (filepathExt filename)) = e
  constructor
  · unfold getLanguage
    split <;> simp_all [GetSupportedExtensions]
  · unfold getLanguage
    split <;> simp_all

end Annotr
